import Mathlib

/-!
# A key-value store over a flat array: model and properties

Shallow embedding of `src/src/store.c` (interface in `src/include/store.h`).

Modelling conventions.

* A C string (`const char*` key) is the list of its bytes before the
  terminating NUL; a value buffer is the list of its bytes.  A pointer that
  may be `NULL` is an `Option`.
* `struct store` keeps `entries`, `size` and `capacity`.  Only the slots
  `entries[0 .. size)` are ever read, so the model keeps exactly this live
  prefix as a list; `size` is its length and `capacity` is a separate field.
* `size_t` quantities are natural numbers: the arithmetic of the source
  (`capacity * 2`, `capacity / 2`, `capacity / 4`, `size++`, `size - 1`) is
  taken without wrap-around, and `size - 1` is only evaluated inside the scan
  loop, where `size > 0`.  The array of `capacity` slots is one allocated
  object of `capacity * sizeof(entry_t)` bytes, which keeps `capacity * 2` in
  the range of `size_t`.
* `store_destroy` only releases memory and is not modelled.
* `malloc`, `realloc` and `strdup` may fail; every function that allocates
  takes an `alloc_t` telling which of its allocations succeed.
* A function that mutates `*store` returns the store after the call next to
  its status.
-/

namespace KV

/-! ## Status codes (`store_error_t`) -/

def STORE_OK : Int := 0
def STORE_ERR_NOMEM : Int := -1
def STORE_ERR_NOTFOUND : Int := -2
def STORE_ERR_INVALID : Int := -3
def STORE_ERR_EXISTS : Int := -4

/-! ## Data model -/

/-- The record `entry_t`: an owned key, an owned value buffer, and the recorded size. -/
structure entry_t where
  key : List Nat
  value : List Nat
  value_size : Nat
deriving DecidableEq, Repr

/-- The record `struct store`: the live slots `entries[0 .. size)` and the capacity. -/
structure store_t where
  entries : List entry_t
  capacity : Nat
deriving DecidableEq, Repr

/-- The field `store->size`: the number of live slots. -/
def store_t.size (s : store_t) : Nat := s.entries.length

/-- Outcome of the allocations one call may perform. -/
structure alloc_t where
  malloc_ok : Bool
  realloc_ok : Bool
  strdup_ok : Bool
deriving DecidableEq, Repr

/-! ## Library functions used by the source -/

/-- The libc `strcmp` on two strings: negative, zero or positive; the end of a
string (its NUL) sorts before every byte. -/
def strcmp : List Nat → List Nat → Int
  | [], [] => 0
  | [], _ :: _ => -1
  | _ :: _, [] => 1
  | a :: as, b :: bs => if a < b then -1 else if b < a then 1 else strcmp as bs

/-- The libc `memcpy(dst, src, n)`: the `n` bytes copied out of the caller's buffer. -/
def memcpy (src : List Nat) (n : Nat) : List Nat := src.take n

/-! ## The scan shared by put, get, delete and exists -/

/-- The loop `for (i = 0; i < size; i++) if (strcmp(entries[i].key, key) == 0) ...`:
the first index whose key matches, with the entry in that slot. -/
def find_index : List entry_t → List Nat → Option (Nat × entry_t)
  | [], _ => none
  | e :: es, key =>
    if strcmp e.key key = 0 then some (0, e)
    else (find_index es key).map (fun p => (p.1 + 1, p.2))

/-! ## Operations -/

/-- The function `store_create`: `NULL` when `malloc` fails, else the empty store. -/
def store_create (a : alloc_t) : Option store_t :=
  if a.malloc_ok then some { entries := [], capacity := 0 } else none

/-- The tail of `store_put` after the growth check: initialise slot `size`. -/
def put_append (a : alloc_t) (s : store_t) (key value : List Nat) (value_size : Nat) :
    Int × Option store_t :=
  if ¬ a.strdup_ok then (STORE_ERR_NOMEM, some s)
  else if ¬ a.malloc_ok then (STORE_ERR_NOMEM, some s)
  else
    (STORE_OK, some { s with
      entries := s.entries ++
        [{ key := key, value := memcpy value value_size, value_size := value_size }] })

/-- The function `store_put`. -/
def store_put (a : alloc_t) (store : Option store_t) (key value : Option (List Nat))
    (value_size : Nat) : Int × Option store_t :=
  match store, key, value with
  | some s, some k, some v =>
    match find_index s.entries k with
    | some (i, e) =>
      if ¬ a.malloc_ok then (STORE_ERR_NOMEM, some s)
      else
        (STORE_OK, some { s with
          entries := s.entries.set i
            { e with value := memcpy v value_size, value_size := value_size } })
    | none =>
      if s.size ≥ s.capacity then
        let new_capacity := if s.capacity = 0 then 4 else s.capacity * 2
        if ¬ a.realloc_ok then (STORE_ERR_NOMEM, some s)
        else put_append a { s with capacity := new_capacity } k v value_size
      else put_append a s k v value_size
  | _, _, _ => (STORE_ERR_INVALID, store)

/-- The function `store_get`.  `value_out` and `value_size_out` tell whether the
two output pointers are non-`NULL`; the second component is what is written
through them (the stored buffer and its recorded size), if anything. -/
def store_get (store : Option store_t) (key : Option (List Nat))
    (value_out value_size_out : Bool) : Int × Option (List Nat × Nat) :=
  match store, key, value_out, value_size_out with
  | some s, some k, true, true =>
    match find_index s.entries k with
    | some (_, e) => (STORE_OK, some (e.value, e.value_size))
    | none => (STORE_ERR_NOTFOUND, none)
  | _, _, _, _ => (STORE_ERR_INVALID, none)

/-- The function `store_delete`.  When the match is at `i < size - 1` the last
live slot `entries[size - 1]` is copied over slot `i`; then `size` drops by one
and the array is shrunk to half when `capacity > 4` and `size < capacity / 4`
and `realloc` succeeds. -/
def store_delete (a : alloc_t) (store : Option store_t) (key : Option (List Nat)) :
    Int × Option store_t :=
  match store, key with
  | some s, some k =>
    match find_index s.entries k with
    | some (i, _) =>
      let moved :=
        if i < s.size - 1 then
          match s.entries[s.size - 1]? with
          | some last => s.entries.set i last
          | none => s.entries
        else s.entries
      let size := s.size - 1
      let entries := moved.take size
      if s.capacity > 4 ∧ size < s.capacity / 4 then
        let new_capacity := s.capacity / 2
        if a.realloc_ok then (STORE_OK, some { entries := entries, capacity := new_capacity })
        else (STORE_OK, some { entries := entries, capacity := s.capacity })
      else (STORE_OK, some { entries := entries, capacity := s.capacity })
    | none => (STORE_ERR_NOTFOUND, some s)
  | _, _ => (STORE_ERR_INVALID, store)

/-- The function `store_size`. -/
def store_size (store : Option store_t) : Nat :=
  match store with
  | none => 0
  | some s => s.size

/-- The function `store_clear`: `size = 0`, capacity kept. -/
def store_clear (store : Option store_t) : Option store_t :=
  match store with
  | none => none
  | some s => some { s with entries := [] }

/-- The function `store_exists`. -/
def store_exists (store : Option store_t) (key : Option (List Nat)) : Bool :=
  match store, key with
  | some s, some k =>
    match find_index s.entries k with
    | some _ => true
    | none => false
  | _, _ => false

/-! ## Sequences of calls -/

/-- Stores obtained from `store_create` by calls of put, delete and clear, with
any arguments and any allocation outcome, successful or failing. -/
inductive Reachable : store_t → Prop
  | create (a : alloc_t) (s : store_t) :
      store_create a = some s → Reachable s
  | put (a : alloc_t) (s : store_t) (key value : Option (List Nat)) (n : Nat) (t : store_t) :
      Reachable s → (store_put a (some s) key value n).2 = some t → Reachable t
  | delete (a : alloc_t) (s : store_t) (key : Option (List Nat)) (t : store_t) :
      Reachable s → (store_delete a (some s) key).2 = some t → Reachable t
  | clear (s t : store_t) :
      Reachable s → store_clear (some s) = some t → Reachable t

/-- One call on a store: `put(key, value, length of value)`, `delete(key)` or
`clear()`, the first two with the outcome of their allocations. -/
inductive op_t where
  | put (a : alloc_t) (key value : List Nat)
  | delete (a : alloc_t) (key : List Nat)
  | clear
deriving DecidableEq, Repr

/-- Status and store after one call (`store_clear` returns nothing: it counts as `STORE_OK`). -/
def step (store : Option store_t) : op_t → Int × Option store_t
  | .put a k v => store_put a store (some k) (some v) v.length
  | .delete a k => store_delete a store (some k)
  | .clear => (STORE_OK, store_clear store)

/-- The store after a sequence of calls. -/
def run (store : Option store_t) : List op_t → Option store_t
  | [] => store
  | o :: os => run (step store o).2 os

/-- Whether every call of the sequence returns `STORE_OK`. -/
def all_ok (store : Option store_t) : List op_t → Bool
  | [] => true
  | o :: os => decide ((step store o).1 = STORE_OK) && all_ok (step store o).2 os

/-- A put call `(allocation outcome, key, value)` as an `op_t`. -/
def to_put (c : alloc_t × List Nat × List Nat) : op_t := .put c.1 c.2.1 c.2.2

/-! ## The abstract associative map -/

/-- The abstract associative map of the specification: key -> bytes. -/
abbrev amap := Finmap (fun _ : List Nat => List Nat)

/-- One operation on the abstract map: put binds the key to the value (replacing
an older binding), delete removes the binding, clear removes all bindings. -/
def amap_step (m : amap) : op_t → amap
  | .put _ k v => m.insert k v
  | .delete _ k => m.erase k
  | .clear => ∅

/-- The abstract map after a sequence of operations. -/
def amap_run (m : amap) : List op_t → amap
  | [] => m
  | o :: os => amap_run (amap_step m o) os

/-- What `get` answers on the abstract map: the bound bytes with their length,
or NotFound. -/
def amap_get (m : amap) (k : List Nat) : Int × Option (List Nat × Nat) :=
  match m.lookup k with
  | some v => (STORE_OK, some (v, v.length))
  | none => (STORE_ERR_NOTFOUND, none)

/-! ## Concrete inputs used in the examples -/

/-- Every allocation succeeds. -/
def alloc_ok : alloc_t := ⟨true, true, true⟩

/-- The store after `put("a", {1,0,2}, 3)`, `put("b", {5}, 1)`, `put("c", {6}, 1)`
on a fresh store. -/
def store_abc : store_t :=
  { entries := [⟨[97], [1, 0, 2], 3⟩, ⟨[98], [5], 1⟩, ⟨[99], [6], 1⟩], capacity := 4 }

/-- A run with four appends, a fifth that grows the array, a replace, a delete,
a clear and a put after the clear. -/
def ops_example : List op_t :=
  [.put alloc_ok [97] [1], .put alloc_ok [98] [2], .put alloc_ok [99] [3],
   .put alloc_ok [100] [4], .put alloc_ok [101] [5], .put alloc_ok [97] [9, 9],
   .delete alloc_ok [98], .clear, .put alloc_ok [102] [0, 6]]

/-- The key and the value are allocated, every `realloc` fails. -/
def alloc_no_realloc : alloc_t := ⟨true, false, true⟩

/-- A store with two live entries in an array of eight slots. -/
def store_wide : store_t :=
  { entries := [⟨[97], [1], 1⟩, ⟨[98], [2], 1⟩], capacity := 8 }

/-- Five puts of new keys, each with every `realloc` failing. -/
def calls_example : List (alloc_t × List Nat × List Nat) :=
  [(alloc_no_realloc, [100], [1]), (alloc_no_realloc, [101], [2, 0]),
   (alloc_no_realloc, [], [3]), (alloc_no_realloc, [103], []),
   (alloc_no_realloc, [104], [5, 5, 5])]

/-! ## Auxiliary notions for the proofs -/

/-- The entry the scan stops at, if any. -/
def lookup (es : List entry_t) (k : List Nat) : Option entry_t :=
  (find_index es k).map Prod.snd

/-- The keys of the live entries, in array order. -/
def keys (es : List entry_t) : List (List Nat) := es.map (fun e => e.key)

/-- The store `s` represents the abstract map `m`: its keys are pairwise
distinct and the scan for a key finds the bytes (and their length) that `m`
binds to it, or nothing when `m` has no binding. -/
def refines (s : store_t) (m : amap) : Prop :=
  (keys s.entries).Nodup ∧
    ∀ k, (lookup s.entries k).map (fun e => (e.value, e.value_size)) =
      (m.lookup k).map (fun v => (v, v.length))

/-! ## Basic facts about the scan -/

theorem nomem_ne_ok : STORE_ERR_NOMEM ≠ STORE_OK := by decide

theorem notfound_ne_ok : STORE_ERR_NOTFOUND ≠ STORE_OK := by decide

theorem invalid_ne_ok : STORE_ERR_INVALID ≠ STORE_OK := by decide

theorem strcmp_eq_zero_iff (a b : List Nat) : strcmp a b = 0 ↔ a = b := by
  induction a generalizing b with
  | nil => cases b <;> simp [strcmp]
  | cons x xs ih =>
    cases b with
    | nil => simp [strcmp]
    | cons y ys =>
      simp only [strcmp, List.cons.injEq]
      split_ifs with h1 h2
      · constructor
        · intro h; exact absurd h (by decide)
        · rintro ⟨h, -⟩; omega
      · constructor
        · intro h; exact absurd h (by decide)
        · rintro ⟨h, -⟩; omega
      · rw [ih]
        have : x = y := by omega
        simp [this]

theorem lookup_nil (k : List Nat) : lookup [] k = none := rfl

theorem lookup_cons (e : entry_t) (es : List entry_t) (k : List Nat) :
    lookup (e :: es) k = if e.key = k then some e else lookup es k := by
  unfold lookup
  simp only [find_index, strcmp_eq_zero_iff]
  split_ifs with h
  · rfl
  · cases find_index es k <;> rfl

theorem lookup_eq_find (es : List entry_t) (k : List Nat) :
    lookup es k = es.find? (fun e => decide (e.key = k)) := by
  induction es with
  | nil => rfl
  | cons e es ih =>
    rw [lookup_cons, List.find?_cons]
    by_cases h : e.key = k <;> simp [h, ih]

theorem find_index_eq_none (es : List entry_t) (k : List Nat) :
    find_index es k = none ↔ lookup es k = none := by
  unfold lookup; cases find_index es k <;> simp

theorem find_index_snd (es : List entry_t) (k : List Nat) (i : Nat) (e : entry_t)
    (h : find_index es k = some (i, e)) : lookup es k = some e := by
  unfold lookup; rw [h]; rfl

/-- A successful scan splits the array at the first match. -/
theorem find_index_split (es : List entry_t) (k : List Nat) (i : Nat) (e : entry_t)
    (h : find_index es k = some (i, e)) :
    ∃ l1 l2, es = l1 ++ e :: l2 ∧ l1.length = i ∧ e.key = k ∧ ∀ x ∈ l1, x.key ≠ k := by
  induction es generalizing i with
  | nil => simp [find_index] at h
  | cons x xs ih =>
    simp only [find_index, strcmp_eq_zero_iff] at h
    split_ifs at h with hx
    · simp only [Option.some.injEq, Prod.mk.injEq] at h
      obtain ⟨rfl, rfl⟩ := h
      exact ⟨[], xs, rfl, rfl, hx, by simp⟩
    · cases hf : find_index xs k with
      | none => simp [hf] at h
      | some p =>
        obtain ⟨j, e1⟩ := p
        simp only [hf, Option.map_some', Option.some.injEq, Prod.mk.injEq] at h
        obtain ⟨rfl, rfl⟩ := h
        obtain ⟨l1, l2, h1, h2, h3, h4⟩ := ih j hf
        refine ⟨x :: l1, l2, by simp [h1], by simp [h2], h3, ?_⟩
        intro y hy
        rcases List.mem_cons.1 hy with rfl | hy
        · exact hx
        · exact h4 y hy

theorem lookup_append (l1 l2 : List entry_t) (k : List Nat) :
    lookup (l1 ++ l2) k = (lookup l1 k).or (lookup l2 k) := by
  simp only [lookup_eq_find, List.find?_append]

theorem lookup_eq_none_iff (es : List entry_t) (k : List Nat) :
    lookup es k = none ↔ ∀ x ∈ es, x.key ≠ k := by
  simp [lookup_eq_find]

theorem lookup_of_not_mem (l1 l2 : List entry_t) (k : List Nat)
    (h : ∀ x ∈ l1, x.key ≠ k) : lookup (l1 ++ l2) k = lookup l2 k := by
  rw [lookup_append, (lookup_eq_none_iff l1 k).2 h]; rfl

theorem lookup_some_key (es : List entry_t) (k : List Nat) (e : entry_t)
    (h : lookup es k = some e) : e.key = k := by
  rw [lookup_eq_find] at h
  simpa using List.find?_some h

theorem lookup_some_mem (es : List entry_t) (k : List Nat) (e : entry_t)
    (h : lookup es k = some e) : e ∈ es := by
  rw [lookup_eq_find] at h
  exact List.mem_of_find?_eq_some h

theorem store_get_eq (s : store_t) (k : List Nat) :
    store_get (some s) (some k) true true =
      match lookup s.entries k with
      | some e => (STORE_OK, some (e.value, e.value_size))
      | none => (STORE_ERR_NOTFOUND, none) := by
  simp only [store_get, lookup]
  cases find_index s.entries k <;> rfl

theorem store_exists_eq (s : store_t) (k : List Nat) :
    store_exists (some s) (some k) = (lookup s.entries k).isSome := by
  simp only [store_exists, lookup]
  cases find_index s.entries k <;> rfl

theorem set_at_split (l1 l2 : List entry_t) (e x : entry_t) :
    (l1 ++ e :: l2).set l1.length x = l1 ++ x :: l2 := by
  induction l1 with
  | nil => rfl
  | cons y ys ih => simp [ih]

/-- The three outcomes of `store_put` on present arguments: an allocation failed
and the entries are untouched; the first match was replaced in place; a new
entry was appended behind the others. -/
theorem store_put_cases (a : alloc_t) (s : store_t) (k v : List Nat) (n : Nat) :
    (∃ c, store_put a (some s) (some k) (some v) n =
        (STORE_ERR_NOMEM, some { entries := s.entries, capacity := c })) ∨
    (∃ l1 e l2, s.entries = l1 ++ e :: l2 ∧ e.key = k ∧ (∀ x ∈ l1, x.key ≠ k) ∧
      store_put a (some s) (some k) (some v) n =
        (STORE_OK, some { entries := l1 ++ ⟨k, memcpy v n, n⟩ :: l2,
                          capacity := s.capacity })) ∨
    (lookup s.entries k = none ∧ ∃ c, store_put a (some s) (some k) (some v) n =
        (STORE_OK, some { entries := s.entries ++ [⟨k, memcpy v n, n⟩], capacity := c })) := by
  simp only [store_put]
  cases hf : find_index s.entries k with
  | some p =>
    obtain ⟨i, e⟩ := p
    obtain ⟨l1, l2, h1, h2, h3, h4⟩ := find_index_split _ _ _ _ hf
    by_cases hm : a.malloc_ok = true
    · right; left
      refine ⟨l1, e, l2, h1, h3, h4, ?_⟩
      simp only [hm, not_true_eq_false, if_false]
      rw [h1, ← h2, set_at_split, h3]
    · left
      exact ⟨s.capacity, by simp [hm]⟩
  | none =>
    have hl : lookup s.entries k = none := (find_index_eq_none _ _).1 hf
    simp only [put_append]
    split_ifs <;>
      first
        | exact Or.inl ⟨s.capacity, rfl⟩
        | exact Or.inl ⟨_, rfl⟩
        | exact Or.inr (Or.inr ⟨hl, _, rfl⟩)

/-- The three outcomes of `store_delete` on present arguments: no match and
nothing changes; the match is the last live slot, which is dropped; the match
is an earlier slot, which receives the last live entry. -/
theorem store_delete_cases (a : alloc_t) (s : store_t) (k : List Nat) :
    (lookup s.entries k = none ∧
      store_delete a (some s) (some k) = (STORE_ERR_NOTFOUND, some s)) ∨
    (∃ l1 e, s.entries = l1 ++ [e] ∧ e.key = k ∧ (∀ x ∈ l1, x.key ≠ k) ∧
      ∃ c, store_delete a (some s) (some k) =
        (STORE_OK, some { entries := l1, capacity := c })) ∨
    (∃ l1 e l2 last, s.entries = l1 ++ e :: (l2 ++ [last]) ∧ e.key = k ∧
      (∀ x ∈ l1, x.key ≠ k) ∧
      ∃ c, store_delete a (some s) (some k) =
        (STORE_OK, some { entries := l1 ++ last :: l2, capacity := c })) := by
  simp only [store_delete]
  cases hf : find_index s.entries k with
  | none => left; exact ⟨(find_index_eq_none _ _).1 hf, rfl⟩
  | some p =>
    obtain ⟨i, e⟩ := p
    obtain ⟨l1, l2, h1, h2, h3, h4⟩ := find_index_split _ _ _ _ hf
    right
    rcases List.eq_nil_or_concat l2 with rfl | ⟨l2, last, rfl⟩
    · left
      refine ⟨l1, e, h1, h3, h4, ?_⟩
      have hsz : s.size - 1 = i := by simp [store_t.size, h1, h2]
      simp only [hsz, lt_irrefl, if_false]
      have ht : List.take i s.entries = l1 := by rw [h1, ← h2]; simp
      rw [ht]
      split_ifs <;> exact ⟨_, rfl⟩
    · right
      refine ⟨l1, e, l2, last, by simpa using h1, h3, h4, ?_⟩
      have hsz : s.size - 1 = (l1 ++ e :: l2).length := by
        simp [store_t.size, h1]
      have hlt : i < s.size - 1 := by rw [hsz, ← h2]; simp
      have he : s.entries = (l1 ++ e :: l2) ++ [last] := by simp [h1]
      have hg : s.entries[s.size - 1]? = some last := by
        rw [hsz, he, List.getElem?_concat_length]
      have hset : s.entries.set i last = (l1 ++ last :: l2) ++ [last] := by
        rw [h1, ← h2, set_at_split]; simp
      have ht : List.take (s.size - 1) ((l1 ++ last :: l2) ++ [last]) = l1 ++ last :: l2 := by
        rw [hsz]
        have : (l1 ++ e :: l2).length = (l1 ++ last :: l2).length := by simp
        rw [this, List.take_left]
      simp only [hlt, if_true, hg, hset, ht]
      split_ifs <;> exact ⟨_, rfl⟩

/-! ## Effect of put on the scan -/

theorem store_put_snd_some (a : alloc_t) (s : store_t) (key value : Option (List Nat))
    (n : Nat) : ∃ t, (store_put a (some s) key value n).2 = some t := by
  cases key with
  | none => exact ⟨s, rfl⟩
  | some k =>
    cases value with
    | none => exact ⟨s, rfl⟩
    | some v =>
      rcases store_put_cases a s k v n with ⟨c, h⟩ | ⟨l1, e, l2, -, -, -, h⟩ | ⟨-, c, h⟩ <;>
        exact ⟨_, by rw [h]⟩

theorem put_lookup_self (a : alloc_t) (s t : store_t) (k v : List Nat) (n : Nat)
    (h : store_put a (some s) (some k) (some v) n = (STORE_OK, some t)) :
    lookup t.entries k = some ⟨k, memcpy v n, n⟩ := by
  rcases store_put_cases a s k v n with ⟨c, h1⟩ | ⟨l1, e, l2, -, -, h4, h1⟩ | ⟨hl, c, h1⟩
  · rw [h1] at h
    exact absurd (congrArg Prod.fst h) nomem_ne_ok
  · rw [h1] at h
    simp only [Prod.mk.injEq, Option.some.injEq, true_and] at h
    subst h
    simp [lookup_of_not_mem _ _ _ h4, lookup_cons]
  · rw [h1] at h
    simp only [Prod.mk.injEq, Option.some.injEq, true_and] at h
    subst h
    simp [lookup_append, hl, lookup_cons]

theorem put_lookup_other (a : alloc_t) (s t : store_t) (key value : Option (List Nat))
    (n : Nat) (k1 : List Nat) (hk : key ≠ some k1)
    (h : (store_put a (some s) key value n).2 = some t) :
    lookup t.entries k1 = lookup s.entries k1 := by
  cases key with
  | none =>
    simp only [store_put, Option.some.injEq] at h
    subst h; rfl
  | some k =>
    have hne : k ≠ k1 := fun hc => hk (by rw [hc])
    cases value with
    | none =>
      simp only [store_put, Option.some.injEq] at h
      subst h; rfl
    | some v =>
      rcases store_put_cases a s k v n with ⟨c, h1⟩ | ⟨l1, e, l2, h2, h3, -, h1⟩ | ⟨-, c, h1⟩
      · rw [h1] at h
        simp only [Option.some.injEq] at h
        subst h; rfl
      · rw [h1] at h
        simp only [Option.some.injEq] at h
        subst h
        have he : e.key ≠ k1 := by rw [h3]; exact hne
        simp only [h2, lookup_append, lookup_cons, he, hne, if_false]
      · rw [h1] at h
        simp only [Option.some.injEq] at h
        subst h
        simp [lookup_append, lookup_cons, hne, lookup_nil]

theorem put_length (a : alloc_t) (s t : store_t) (k v : List Nat) (n : Nat)
    (h : store_put a (some s) (some k) (some v) n = (STORE_OK, some t)) :
    t.entries.length = s.entries.length + if (lookup s.entries k).isSome then 0 else 1 := by
  rcases store_put_cases a s k v n with ⟨c, h1⟩ | ⟨l1, e, l2, h2, h3, h4, h1⟩ | ⟨hl, c, h1⟩
  · rw [h1] at h
    exact absurd (congrArg Prod.fst h) nomem_ne_ok
  · rw [h1] at h
    simp only [Prod.mk.injEq, Option.some.injEq, true_and] at h
    subst h
    have : lookup s.entries k = some e := by
      rw [h2, lookup_of_not_mem _ _ _ h4, lookup_cons, if_pos h3]
    rw [this]
    simp [h2]
  · rw [h1] at h
    simp only [Prod.mk.injEq, Option.some.injEq, true_and] at h
    subst h
    simp [hl]

theorem put_failed_entries (a : alloc_t) (s t : store_t) (key value : Option (List Nat))
    (n : Nat) (h : (store_put a (some s) key value n).2 = some t)
    (hst : (store_put a (some s) key value n).1 ≠ STORE_OK) : t.entries = s.entries := by
  cases key with
  | none =>
    simp only [store_put, Option.some.injEq] at h
    subst h; rfl
  | some k =>
    cases value with
    | none =>
      simp only [store_put, Option.some.injEq] at h
      subst h; rfl
    | some v =>
      rcases store_put_cases a s k v n with ⟨c, h1⟩ | ⟨l1, e, l2, -, -, -, h1⟩ | ⟨-, c, h1⟩
      · rw [h1] at h
        simp only [Option.some.injEq] at h
        subst h; rfl
      · rw [h1] at hst; exact absurd rfl hst
      · rw [h1] at hst; exact absurd rfl hst

theorem put_keys_nodup (a : alloc_t) (s t : store_t) (key value : Option (List Nat))
    (n : Nat) (hs : (keys s.entries).Nodup)
    (h : (store_put a (some s) key value n).2 = some t) : (keys t.entries).Nodup := by
  cases key with
  | none =>
    simp only [store_put, Option.some.injEq] at h
    subst h; exact hs
  | some k =>
    cases value with
    | none =>
      simp only [store_put, Option.some.injEq] at h
      subst h; exact hs
    | some v =>
      rcases store_put_cases a s k v n with ⟨c, h1⟩ | ⟨l1, e, l2, h2, h3, -, h1⟩ | ⟨hl, c, h1⟩
      · rw [h1] at h
        simp only [Option.some.injEq] at h
        subst h; exact hs
      · rw [h1] at h
        simp only [Option.some.injEq] at h
        subst h
        have : keys (l1 ++ ⟨k, memcpy v n, n⟩ :: l2) = keys s.entries := by
          simp [keys, h2, h3]
        rw [this]; exact hs
      · rw [h1] at h
        simp only [Option.some.injEq] at h
        subst h
        have hk : k ∉ keys s.entries := by
          intro hc
          obtain ⟨x, hx, hxk⟩ := List.mem_map.1 hc
          exact (lookup_eq_none_iff _ _).1 hl x hx hxk
        simp only [keys, List.map_append, List.map_cons, List.map_nil] at hk ⊢
        rw [List.nodup_append]
        refine ⟨hs, List.nodup_singleton _, ?_⟩
        intro x hx1 hx2
        rw [List.mem_singleton] at hx2
        subst hx2
        exact hk hx1

/-! ## Effect of delete on the scan -/

theorem store_delete_snd_some (a : alloc_t) (s : store_t) (key : Option (List Nat)) :
    ∃ t, (store_delete a (some s) key).2 = some t := by
  cases key with
  | none => exact ⟨s, rfl⟩
  | some k =>
    rcases store_delete_cases a s k with ⟨-, h⟩ | ⟨l1, e, -, -, -, c, h⟩ |
        ⟨l1, e, l2, last, -, -, -, c, h⟩ <;>
      exact ⟨_, by rw [h]⟩

theorem keys_split (l1 l2 : List entry_t) (e : entry_t) :
    keys (l1 ++ e :: l2) = keys l1 ++ e.key :: keys l2 := by
  simp [keys]

theorem delete_keys_nodup (a : alloc_t) (s t : store_t) (key : Option (List Nat))
    (hs : (keys s.entries).Nodup) (h : (store_delete a (some s) key).2 = some t) :
    (keys t.entries).Nodup := by
  cases key with
  | none =>
    simp only [store_delete, Option.some.injEq] at h
    subst h; exact hs
  | some k =>
    rcases store_delete_cases a s k with ⟨-, h1⟩ | ⟨l1, e, h2, -, -, c, h1⟩ |
        ⟨l1, e, l2, last, h2, -, -, c, h1⟩
    · rw [h1] at h
      simp only [Option.some.injEq] at h
      subst h; exact hs
    · rw [h1] at h
      simp only [Option.some.injEq] at h
      subst h
      rw [h2, keys_split] at hs
      exact (List.nodup_append.1 hs).1
    · rw [h1] at h
      simp only [Option.some.injEq] at h
      subst h
      have hsub : List.Sublist (keys (l1 ++ (l2 ++ [last]))) (keys s.entries) := by
        rw [h2]
        exact List.Sublist.map _
          (List.Sublist.append_left (List.sublist_cons_self e (l2 ++ [last])) l1)
      have hperm : List.Perm (keys (l1 ++ last :: l2)) (keys (l1 ++ (l2 ++ [last]))) := by
        refine List.Perm.map _ (List.Perm.append_left l1 ?_)
        exact (List.perm_append_singleton last l2).symm
      exact hperm.nodup_iff.2 (hs.sublist hsub)

/-- With pairwise distinct keys, deleting `k` leaves no entry for `k`. -/
theorem delete_lookup_self (a : alloc_t) (s t : store_t) (k : List Nat)
    (hs : (keys s.entries).Nodup) (h : (store_delete a (some s) (some k)).2 = some t) :
    lookup t.entries k = none := by
  rcases store_delete_cases a s k with ⟨hl, h1⟩ | ⟨l1, e, h2, -, h4, c, h1⟩ |
      ⟨l1, e, l2, last, h2, h3, h4, c, h1⟩
  · rw [h1] at h
    simp only [Option.some.injEq] at h
    subst h; exact hl
  · rw [h1] at h
    simp only [Option.some.injEq] at h
    subst h
    exact (lookup_eq_none_iff _ _).2 h4
  · rw [h1] at h
    simp only [Option.some.injEq] at h
    subst h
    rw [h2, keys_split] at hs
    have hnd := (List.nodup_cons.1 (List.nodup_append.1 hs).2.1).1
    rw [lookup_eq_none_iff]
    intro x hx
    rcases List.mem_append.1 hx with hx | hx
    · exact h4 x hx
    · intro hxk
      apply hnd
      rw [h3, ← hxk]
      refine List.mem_map.2 ⟨x, ?_, rfl⟩
      rcases List.mem_cons.1 hx with rfl | hx
      · simp
      · simp [hx]

/-- With pairwise distinct keys, deleting `k` leaves the scan for every other
key with the same entry. -/
theorem delete_lookup_other (a : alloc_t) (s t : store_t) (key : Option (List Nat))
    (k1 : List Nat) (hk : key ≠ some k1) (hs : (keys s.entries).Nodup)
    (h : (store_delete a (some s) key).2 = some t) :
    lookup t.entries k1 = lookup s.entries k1 := by
  cases key with
  | none =>
    simp only [store_delete, Option.some.injEq] at h
    subst h; rfl
  | some k =>
    have hne : k ≠ k1 := fun hc => hk (by rw [hc])
    rcases store_delete_cases a s k with ⟨-, h1⟩ | ⟨l1, e, h2, h3, -, c, h1⟩ |
        ⟨l1, e, l2, last, h2, h3, -, c, h1⟩
    · rw [h1] at h
      simp only [Option.some.injEq] at h
      subst h; rfl
    · rw [h1] at h
      simp only [Option.some.injEq] at h
      subst h
      have he : e.key ≠ k1 := by rw [h3]; exact hne
      simp [h2, lookup_append, lookup_cons, he, lookup_nil]
    · rw [h1] at h
      simp only [Option.some.injEq] at h
      subst h
      have he : e.key ≠ k1 := by rw [h3]; exact hne
      rw [h2, keys_split] at hs
      have hnd := (List.nodup_cons.1 (List.nodup_append.1 hs).2.1).2
      simp only [h2, lookup_append, lookup_cons, he, if_false, lookup_nil]
      by_cases hl : last.key = k1
      · have hl2 : lookup l2 k1 = none := by
          rw [lookup_eq_none_iff]
          intro x hx hxk
          simp only [keys, List.map_append, List.map_cons, List.map_nil] at hnd
          have := (List.nodup_append.1 hnd).2.2
          exact this (List.mem_map.2 ⟨x, hx, rfl⟩) (by simp [hxk, hl])
        simp [hl, hl2]
      · simp [hl]

theorem delete_length (a : alloc_t) (s t : store_t) (k : List Nat)
    (h : store_delete a (some s) (some k) = (STORE_OK, some t)) :
    t.entries.length + 1 = s.entries.length := by
  rcases store_delete_cases a s k with ⟨-, h1⟩ | ⟨l1, e, h2, -, -, c, h1⟩ |
      ⟨l1, e, l2, last, h2, -, -, c, h1⟩
  · rw [h1] at h
    exact absurd (congrArg Prod.fst h) notfound_ne_ok
  · rw [h1] at h
    simp only [Prod.mk.injEq, Option.some.injEq, true_and] at h
    subst h
    simp [h2]
  · rw [h1] at h
    simp only [Prod.mk.injEq, Option.some.injEq, true_and] at h
    subst h
    simp [h2]
    omega

theorem delete_status (a : alloc_t) (s : store_t) (k : List Nat) :
    (store_delete a (some s) (some k)).1 =
      if (lookup s.entries k).isSome then STORE_OK else STORE_ERR_NOTFOUND := by
  rcases store_delete_cases a s k with ⟨hl, h1⟩ | ⟨l1, e, h2, h3, h4, c, h1⟩ |
      ⟨l1, e, l2, last, h2, h3, h4, c, h1⟩
  · rw [h1, hl]; rfl
  · have : lookup s.entries k = some e := by
      rw [h2, lookup_of_not_mem _ _ _ h4, lookup_cons, if_pos h3]
    rw [h1, this]; rfl
  · have : lookup s.entries k = some e := by
      rw [h2, lookup_of_not_mem _ _ _ h4, lookup_cons, if_pos h3]
    rw [h1, this]; rfl

/-! ## Invariant of reachable stores -/

/-- In every reachable store the keys of the live entries are pairwise distinct. -/
theorem reachable_keys_nodup (s : store_t) (h : Reachable s) : (keys s.entries).Nodup := by
  induction h with
  | create a s h =>
    unfold store_create at h
    split_ifs at h
    simp only [Option.some.injEq] at h
    subst h
    exact List.nodup_nil
  | put a s key value n t _ h ih => exact put_keys_nodup a s t key value n ih h
  | delete a s key t _ h ih => exact delete_keys_nodup a s t key ih h
  | clear s t _ h ih =>
    simp only [store_clear, Option.some.injEq] at h
    subst h
    exact List.nodup_nil

theorem reachable_run (s t : store_t) (ops : List op_t) (hs : Reachable s)
    (h : run (some s) ops = some t) : Reachable t := by
  induction ops generalizing s with
  | nil =>
    simp only [run, Option.some.injEq] at h
    subst h; exact hs
  | cons o os ih =>
    simp only [run] at h
    cases o with
    | put a k v =>
      obtain ⟨u, hu⟩ := store_put_snd_some a s (some k) (some v) v.length
      simp only [step, hu] at h
      exact ih u (Reachable.put a s _ _ _ u hs hu) h
    | delete a k =>
      obtain ⟨u, hu⟩ := store_delete_snd_some a s (some k)
      simp only [step, hu] at h
      exact ih u (Reachable.delete a s _ u hs hu) h
    | clear =>
      simp only [step] at h
      exact ih _ (Reachable.clear s _ hs rfl) h

theorem reachable_store_abc : Reachable store_abc :=
  reachable_run ⟨[], 0⟩ store_abc
    [.put alloc_ok [97] [1, 0, 2], .put alloc_ok [98] [5], .put alloc_ok [99] [6]]
    (Reachable.create alloc_ok _ rfl) (by decide)

theorem put_eq_of_status (a : alloc_t) (s : store_t) (k v : List Nat) (n : Nat)
    (h : (store_put a (some s) (some k) (some v) n).1 = STORE_OK) :
    ∃ t, store_put a (some s) (some k) (some v) n = (STORE_OK, some t) := by
  obtain ⟨t, ht⟩ := store_put_snd_some a s (some k) (some v) n
  exact ⟨t, Prod.ext h ht⟩

theorem memcpy_length (v : List Nat) : memcpy v v.length = v := by
  simp [memcpy]

/-! ## Contract of put, get and delete -/

/-- C1, put/get round trip: when `store_put(store, k, v, n)` with `v` of
length `n` returns `STORE_OK`, a following `store_get(store, k)` returns
`STORE_OK` with exactly the bytes `v` and the length `n`. -/
theorem put_get_round_trip (a : alloc_t) (store : Option store_t) (k v : List Nat) (n : Nat)
    (hn : v.length = n)
    (hput : (store_put a store (some k) (some v) n).1 = STORE_OK) :
    store_get (store_put a store (some k) (some v) n).2 (some k) true true =
      (STORE_OK, some (v, n)) := by
  cases store with
  | none => exact absurd hput invalid_ne_ok
  | some s =>
    obtain ⟨t, ht⟩ := put_eq_of_status a s k v n hput
    subst hn
    rw [ht, store_get_eq, put_lookup_self a s t k v _ ht, memcpy_length]

theorem put_get_round_trip_witness :
    (store_put alloc_ok (store_create alloc_ok) (some []) (some [0, 1, 2, 255, 254, 0, 66]) 7).1
        = STORE_OK ∧
      store_get
        (store_put alloc_ok (store_create alloc_ok) (some [])
          (some [0, 1, 2, 255, 254, 0, 66]) 7).2 (some []) true true =
        (STORE_OK, some ([0, 1, 2, 255, 254, 0, 66], 7)) :=
  ⟨by decide, put_get_round_trip alloc_ok (store_create alloc_ok) [] [0, 1, 2, 255, 254, 0, 66] 7
    rfl (by decide)⟩

/-- C2, replace: when the store already holds key `k`, a successful
`store_put(store, k, v2, n2)` leaves `store_size` unchanged and a following
`store_get(store, k)` returns `v2` with length `n2`. -/
theorem put_replace (a : alloc_t) (s : store_t) (k v2 : List Nat) (n2 : Nat)
    (hn : v2.length = n2)
    (hk : store_exists (some s) (some k) = true)
    (hput : (store_put a (some s) (some k) (some v2) n2).1 = STORE_OK) :
    store_size (store_put a (some s) (some k) (some v2) n2).2 = store_size (some s) ∧
      store_get (store_put a (some s) (some k) (some v2) n2).2 (some k) true true =
        (STORE_OK, some (v2, n2)) := by
  obtain ⟨t, ht⟩ := put_eq_of_status a s k v2 n2 hput
  rw [store_exists_eq] at hk
  subst hn
  refine ⟨?_, ?_⟩
  · rw [ht]
    simp only [store_size, store_t.size]
    rw [put_length a s t k v2 _ ht, hk]
    rfl
  · rw [ht, store_get_eq, put_lookup_self a s t k v2 _ ht, memcpy_length]

theorem put_replace_witness :
    store_size (store_put alloc_ok (some store_abc) (some [97]) (some [9, 9, 9, 9, 9]) 5).2 =
        store_size (some store_abc) ∧
      store_get (store_put alloc_ok (some store_abc) (some [97]) (some [9, 9, 9, 9, 9]) 5).2
        (some [97]) true true = (STORE_OK, some ([9, 9, 9, 9, 9], 5)) :=
  put_replace alloc_ok store_abc [97] [9, 9, 9, 9, 9] 5 rfl (by decide) (by decide)

/-- C3, delete of a present key: in a store reachable from `store_create`, when
`store_exists(store, k)` holds, `store_delete(store, k)` returns `STORE_OK`,
afterwards `store_exists(store, k)` is false, `store_get(store, k)` returns
`STORE_ERR_NOTFOUND`, and `store_size` is one less than before. -/
theorem delete_present (a : alloc_t) (s : store_t) (k : List Nat)
    (hr : Reachable s)
    (hk : store_exists (some s) (some k) = true) :
    (store_delete a (some s) (some k)).1 = STORE_OK ∧
      store_exists (store_delete a (some s) (some k)).2 (some k) = false ∧
      store_get (store_delete a (some s) (some k)).2 (some k) true true =
        (STORE_ERR_NOTFOUND, none) ∧
      store_size (store_delete a (some s) (some k)).2 + 1 = store_size (some s) := by
  rw [store_exists_eq] at hk
  have hst : (store_delete a (some s) (some k)).1 = STORE_OK := by
    rw [delete_status, hk]; rfl
  obtain ⟨t, ht⟩ := store_delete_snd_some a s (some k)
  have hl := delete_lookup_self a s t k (reachable_keys_nodup s hr) ht
  have hlen := delete_length a s t k (Prod.ext hst ht)
  refine ⟨hst, ?_, ?_, ?_⟩
  · rw [ht, store_exists_eq, hl]; rfl
  · rw [ht, store_get_eq, hl]
  · rw [ht]; exact hlen

theorem delete_present_witness :
    (store_delete alloc_ok (some store_abc) (some [97])).1 = STORE_OK ∧
      store_exists (store_delete alloc_ok (some store_abc) (some [97])).2 (some [97]) = false ∧
      store_get (store_delete alloc_ok (some store_abc) (some [97])).2 (some [97]) true true =
        (STORE_ERR_NOTFOUND, none) ∧
      store_size (store_delete alloc_ok (some store_abc) (some [97])).2 + 1 =
        store_size (some store_abc) :=
  delete_present alloc_ok store_abc [97] reachable_store_abc (by decide)

/-- C4, delete of a missing key: when no entry of the store matches `k`,
`store_delete(store, k)` returns `STORE_ERR_NOTFOUND` and the store is unchanged
(same entries, same size, same capacity). -/
theorem delete_missing (a : alloc_t) (s : store_t) (k : List Nat)
    (hk : ∀ e ∈ s.entries, strcmp e.key k ≠ 0) :
    store_delete a (some s) (some k) = (STORE_ERR_NOTFOUND, some s) := by
  have hl : lookup s.entries k = none := by
    rw [lookup_eq_none_iff]
    intro x hx hxk
    exact hk x hx ((strcmp_eq_zero_iff _ _).2 hxk)
  rcases store_delete_cases a s k with ⟨-, h⟩ | ⟨l1, e, h2, h3, h4, -⟩ |
      ⟨l1, e, l2, last, h2, h3, h4, -⟩
  · exact h
  · rw [h2, lookup_of_not_mem _ _ _ h4, lookup_cons, if_pos h3] at hl
    exact absurd hl (by simp)
  · rw [h2, lookup_of_not_mem _ _ _ h4, lookup_cons, if_pos h3] at hl
    exact absurd hl (by simp)

theorem delete_missing_witness :
    store_delete alloc_ok (some store_abc) (some [100]) =
      (STORE_ERR_NOTFOUND, some store_abc) :=
  delete_missing alloc_ok store_abc [100] (by decide)

/-- C5, put does not disturb other keys: for a key `k1` other than `k`, the
results of `store_get(store, k1)` and `store_exists(store, k1)` are the same
after `store_put(store, k, v, n)` as before, whatever the put did (replace,
append, growth of the array, or failure). -/
theorem put_frame (a : alloc_t) (store : Option store_t) (k k1 : List Nat)
    (value : Option (List Nat)) (n : Nat) (hne : k1 ≠ k) :
    store_get (store_put a store (some k) value n).2 (some k1) true true =
        store_get store (some k1) true true ∧
      store_exists (store_put a store (some k) value n).2 (some k1) =
        store_exists store (some k1) := by
  cases store with
  | none => exact ⟨rfl, rfl⟩
  | some s =>
    obtain ⟨t, ht⟩ := store_put_snd_some a s (some k) value n
    have hl := put_lookup_other a s t (some k) value n k1
      (fun hc => hne (Option.some.inj hc).symm) ht
    rw [ht, store_get_eq, store_get_eq, store_exists_eq, store_exists_eq, hl]
    exact ⟨rfl, rfl⟩

theorem put_frame_witness :
    store_get (store_put alloc_ok (some store_abc) (some [100]) (some [7, 7]) 2).2
        (some [98]) true true = store_get (some store_abc) (some [98]) true true ∧
      store_exists (store_put alloc_ok (some store_abc) (some [100]) (some [7, 7]) 2).2
        (some [98]) = store_exists (some store_abc) (some [98]) :=
  put_frame alloc_ok (some store_abc) [100] [98] (some [7, 7]) 2 (by decide)

/-- C6, delete does not disturb other keys: in a store reachable from
`store_create`, for a key `k1` other than `k`, the results of
`store_get(store, k1)` and `store_exists(store, k1)` are the same after
`store_delete(store, k)` as before, also when the last entry is moved or the
array shrinks. -/
theorem delete_frame (a : alloc_t) (s : store_t) (k k1 : List Nat)
    (hr : Reachable s) (hne : k1 ≠ k) :
    store_get (store_delete a (some s) (some k)).2 (some k1) true true =
        store_get (some s) (some k1) true true ∧
      store_exists (store_delete a (some s) (some k)).2 (some k1) =
        store_exists (some s) (some k1) := by
  obtain ⟨t, ht⟩ := store_delete_snd_some a s (some k)
  have hl := delete_lookup_other a s t (some k) k1
    (fun hc => hne (Option.some.inj hc).symm) (reachable_keys_nodup s hr) ht
  rw [ht, store_get_eq, store_get_eq, store_exists_eq, store_exists_eq, hl]
  exact ⟨rfl, rfl⟩

theorem delete_frame_witness :
    store_get (store_delete alloc_ok (some store_abc) (some [97])).2 (some [99]) true true =
        store_get (some store_abc) (some [99]) true true ∧
      store_exists (store_delete alloc_ok (some store_abc) (some [97])).2 (some [99]) =
        store_exists (some store_abc) (some [99]) :=
  delete_frame alloc_ok store_abc [97] [99] reachable_store_abc (by decide)

/-! ## Size and the set of keys -/

theorem mem_keys_iff (es : List entry_t) (k : List Nat) :
    k ∈ keys es ↔ lookup es k ≠ none := by
  rw [Ne, lookup_eq_none_iff]
  simp only [keys, List.mem_map]
  constructor
  · rintro ⟨x, hx, hxk⟩ h
    exact h x hx hxk
  · intro h
    by_contra hc
    exact h (fun x hx hxk => hc ⟨x, hx, hxk⟩)

theorem put_mem_keys (a : alloc_t) (s t : store_t) (k v : List Nat) (n : Nat)
    (h : store_put a (some s) (some k) (some v) n = (STORE_OK, some t)) (k1 : List Nat) :
    k1 ∈ keys t.entries ↔ k1 = k ∨ k1 ∈ keys s.entries := by
  by_cases hk : k1 = k
  · subst hk
    simp [mem_keys_iff, put_lookup_self a s t k1 v n h]
  · have hl := put_lookup_other a s t (some k) (some v) n k1
      (fun hc => hk (Option.some.inj hc).symm) (by rw [h])
    simp [mem_keys_iff, hl, hk]

theorem all_ok_cons (store : Option store_t) (o : op_t) (os : List op_t) :
    all_ok store (o :: os) = true ↔
      (step store o).1 = STORE_OK ∧ all_ok (step store o).2 os = true := by
  simp [all_ok]

/-- After a run of successful puts the keys are pairwise distinct and are the
keys held before together with the keys put. -/
theorem puts_keys (s : store_t) (calls : List (alloc_t × List Nat × List Nat))
    (hnd : (keys s.entries).Nodup)
    (hok : all_ok (some s) (calls.map to_put) = true) :
    ∃ t, run (some s) (calls.map to_put) = some t ∧ (keys t.entries).Nodup ∧
      ∀ k, k ∈ keys t.entries ↔ k ∈ keys s.entries ∨ k ∈ calls.map (fun c => c.2.1) := by
  induction calls generalizing s with
  | nil => exact ⟨s, rfl, hnd, by simp⟩
  | cons c cs ih =>
    obtain ⟨a, k, v⟩ := c
    simp only [List.map_cons, all_ok_cons, to_put, step] at hok
    obtain ⟨u, hu⟩ := put_eq_of_status a s k v v.length hok.1
    have hnu := put_keys_nodup a s u (some k) (some v) v.length hnd (by rw [hu])
    have hok2 := hok.2
    rw [hu] at hok2
    obtain ⟨t, ht, hnt, hmem⟩ := ih u hnu hok2
    refine ⟨t, ?_, hnt, ?_⟩
    · simp only [List.map_cons, run, to_put, step, hu]
      exact ht
    · intro k1
      rw [hmem k1, put_mem_keys a s u k v v.length hu k1]
      simp only [List.map_cons, List.mem_cons]
      tauto

theorem create_eq (a : alloc_t) (s : store_t) (h : store_create a = some s) :
    s = ⟨[], 0⟩ := by
  unfold store_create at h
  split_ifs at h
  simp only [Option.some.injEq] at h
  exact h.symm

/-- C7, size counts distinct keys: after a sequence of successful `store_put`
calls on a freshly created store, `store_size` is the number of distinct keys of
the sequence; and a successful put raises `store_size` by exactly 1 when the
key was absent and by 0 when it was present. -/
theorem size_counts_distinct_keys :
    (∀ (a0 : alloc_t) (s0 : store_t) (calls : List (alloc_t × List Nat × List Nat)),
      store_create a0 = some s0 →
      all_ok (some s0) (calls.map to_put) = true →
      store_size (run (some s0) (calls.map to_put)) =
        (calls.map (fun c => c.2.1)).toFinset.card) ∧
    (∀ (a : alloc_t) (s : store_t) (k v : List Nat) (n : Nat),
      (store_put a (some s) (some k) (some v) n).1 = STORE_OK →
      store_size (store_put a (some s) (some k) (some v) n).2 =
        store_size (some s) + if store_exists (some s) (some k) = true then 0 else 1) := by
  constructor
  · intro a0 s0 calls h0 hok
    have hs0 := create_eq a0 s0 h0
    subst hs0
    obtain ⟨t, ht, hnt, hmem⟩ := puts_keys ⟨[], 0⟩ calls List.nodup_nil hok
    rw [ht]
    have hfs : (keys t.entries).toFinset = (calls.map (fun c => c.2.1)).toFinset := by
      ext k
      simp only [List.mem_toFinset, hmem k]
      simp [keys]
    rw [← hfs, List.toFinset_card_of_nodup hnt]
    simp [store_size, store_t.size, keys]
  · intro a s k v n hput
    obtain ⟨t, ht⟩ := put_eq_of_status a s k v n hput
    rw [ht, store_exists_eq]
    simp only [store_size, store_t.size]
    rw [put_length a s t k v n ht]

theorem size_counts_distinct_keys_witness :
    store_size (run (some ⟨[], 0⟩)
        ([(alloc_ok, [97], [1]), (alloc_ok, [98], [2]), (alloc_ok, [97], [3, 4]),
          (alloc_ok, [], [5]), (alloc_ok, [98], [])].map to_put)) =
      ([(alloc_ok, [97], [1]), (alloc_ok, [98], [2]), (alloc_ok, [97], [3, 4]),
        (alloc_ok, [], [5]), (alloc_ok, [98], [])].map
          (fun c : alloc_t × List Nat × List Nat => c.2.1)).toFinset.card :=
  size_counts_distinct_keys.1 alloc_ok ⟨[], 0⟩ _ rfl (by decide)

/-! ## Refinement of the abstract map -/

theorem step_refines (s : store_t) (m : amap) (o : op_t) (h : refines s m)
    (hok : (step (some s) o).1 = STORE_OK) :
    ∃ t, (step (some s) o).2 = some t ∧ refines t (amap_step m o) := by
  cases o with
  | put a k v =>
    simp only [step] at hok ⊢
    obtain ⟨u, hu⟩ := put_eq_of_status a s k v v.length hok
    refine ⟨u, by rw [hu], put_keys_nodup a s u _ _ _ h.1 (by rw [hu]), ?_⟩
    intro k1
    simp only [amap_step]
    by_cases hk : k1 = k
    · subst hk
      rw [put_lookup_self a s u k1 v _ hu, Finmap.lookup_insert, memcpy_length]
      rfl
    · rw [put_lookup_other a s u (some k) (some v) _ k1
        (fun hc => hk (Option.some.inj hc).symm) (by rw [hu]),
        Finmap.lookup_insert_of_ne _ hk]
      exact h.2 k1
  | delete a k =>
    simp only [step] at hok ⊢
    obtain ⟨u, hu⟩ := store_delete_snd_some a s (some k)
    refine ⟨u, hu, delete_keys_nodup a s u _ h.1 hu, ?_⟩
    intro k1
    simp only [amap_step]
    by_cases hk : k1 = k
    · subst hk
      rw [delete_lookup_self a s u k1 h.1 hu, Finmap.lookup_erase]
      rfl
    · rw [delete_lookup_other a s u (some k) k1
        (fun hc => hk (Option.some.inj hc).symm) h.1 hu,
        Finmap.lookup_erase_ne hk]
      exact h.2 k1
  | clear =>
    refine ⟨⟨[], s.capacity⟩, rfl, List.nodup_nil, ?_⟩
    intro k1
    simp only [amap_step, Finmap.lookup_empty, lookup_nil]
    rfl

theorem run_refines (s : store_t) (m : amap) (ops : List op_t) (h : refines s m)
    (hok : all_ok (some s) ops = true) :
    ∃ t, run (some s) ops = some t ∧ refines t (amap_run m ops) := by
  induction ops generalizing s m with
  | nil => exact ⟨s, rfl, h⟩
  | cons o os ih =>
    rw [all_ok_cons] at hok
    obtain ⟨u, hu, hru⟩ := step_refines s m o h hok.1
    have hok2 := hok.2
    rw [hu] at hok2
    obtain ⟨t, ht, hrt⟩ := ih u (amap_step m o) hru hok2
    exact ⟨t, by simp only [run, hu, ht], hrt⟩

theorem refines_get (s : store_t) (m : amap) (h : refines s m) (k : List Nat) :
    store_get (some s) (some k) true true = amap_get m k := by
  have hk := h.2 k
  rw [store_get_eq]
  unfold amap_get
  cases hl : lookup s.entries k with
  | none =>
    cases hm : Finmap.lookup k m with
    | none => rfl
    | some v => rw [hl, hm] at hk; exact absurd hk (by simp)
  | some e =>
    cases hm : Finmap.lookup k m with
    | none => rw [hl, hm] at hk; exact absurd hk (by simp)
    | some v =>
      rw [hl, hm] at hk
      simp only [Option.map_some', Option.some.injEq, Prod.mk.injEq] at hk
      simp only [hk.1, hk.2]

theorem refines_exists (s : store_t) (m : amap) (h : refines s m) (k : List Nat) :
    store_exists (some s) (some k) = (m.lookup k).isSome := by
  have hk := h.2 k
  rw [store_exists_eq]
  cases hl : lookup s.entries k <;> cases hm : Finmap.lookup k m <;>
    rw [hl, hm] at hk <;> first | rfl | exact absurd hk (by simp)

theorem refines_size (s : store_t) (m : amap) (h : refines s m) :
    store_size (some s) = m.keys.card := by
  have hfs : (keys s.entries).toFinset = m.keys := by
    ext k
    rw [List.mem_toFinset, mem_keys_iff, Finmap.mem_keys, ← Finmap.lookup_isSome]
    have hk := h.2 k
    cases hl : lookup s.entries k <;> cases hm : Finmap.lookup k m <;>
      rw [hl, hm] at hk <;> simp at hk ⊢
  rw [← hfs, List.toFinset_card_of_nodup h.1]
  simp [store_size, store_t.size, keys]

theorem amap_puts_lookup_of_not_mem (m : amap)
    (calls : List (alloc_t × List Nat × List Nat)) (k : List Nat)
    (hk : k ∉ calls.map (fun c => c.2.1)) :
    (amap_run m (calls.map to_put)).lookup k = m.lookup k := by
  induction calls generalizing m with
  | nil => rfl
  | cons c cs ih =>
    simp only [List.map_cons, List.mem_cons, not_or] at hk
    simp only [List.map_cons, amap_run, to_put, amap_step]
    rw [ih _ hk.2, Finmap.lookup_insert_of_ne _ hk.1]

theorem amap_puts_lookup (m : amap) (calls : List (alloc_t × List Nat × List Nat))
    (hnd : (calls.map (fun c => c.2.1)).Nodup) (c : alloc_t × List Nat × List Nat)
    (hc : c ∈ calls) : (amap_run m (calls.map to_put)).lookup c.2.1 = some c.2.2 := by
  induction calls generalizing m with
  | nil => simp at hc
  | cons c0 cs ih =>
    simp only [List.map_cons, List.nodup_cons] at hnd
    simp only [List.map_cons, amap_run, to_put, amap_step]
    rcases List.mem_cons.1 hc with rfl | hc
    · rw [amap_puts_lookup_of_not_mem _ cs _ hnd.1, Finmap.lookup_insert]
    · exact ih _ hnd.2 hc

/-- C8, the store behaves as a finite map: after a sequence of successful
put, delete and clear calls on a freshly created store, `store_get`,
`store_exists` and `store_size` agree with the abstract associative map driven
by the same operations (get returns the bytes bound by the most recent put of
the key that no delete of it and no clear followed, NotFound otherwise).  In
particular, after puts of pairwise distinct keys, every key reads back with
its own value, however often the array was grown. -/
theorem store_refines_map (a0 : alloc_t) (s0 : store_t) (ops : List op_t)
    (h0 : store_create a0 = some s0)
    (hok : all_ok (some s0) ops = true) :
    (∀ k, store_get (run (some s0) ops) (some k) true true = amap_get (amap_run ∅ ops) k) ∧
    (∀ k, store_exists (run (some s0) ops) (some k) = ((amap_run ∅ ops).lookup k).isSome) ∧
    store_size (run (some s0) ops) = (amap_run ∅ ops).keys.card ∧
    (∀ calls : List (alloc_t × List Nat × List Nat),
      ops = calls.map to_put → (calls.map (fun c => c.2.1)).Nodup →
      ∀ c ∈ calls, store_get (run (some s0) ops) (some c.2.1) true true =
        (STORE_OK, some (c.2.2, c.2.2.length))) := by
  have hs0 := create_eq a0 s0 h0
  subst hs0
  have hinit : refines ⟨[], 0⟩ ∅ :=
    ⟨List.nodup_nil, fun k => by simp only [lookup_nil, Finmap.lookup_empty]; rfl⟩
  obtain ⟨t, ht, hrt⟩ := run_refines ⟨[], 0⟩ ∅ ops hinit hok
  rw [ht]
  refine ⟨refines_get t _ hrt, refines_exists t _ hrt, refines_size t _ hrt, ?_⟩
  intro calls hops hnd c hc
  rw [refines_get t _ hrt, hops]
  unfold amap_get
  rw [amap_puts_lookup ∅ calls hnd c hc]

theorem store_refines_map_witness :
    all_ok (some ⟨[], 0⟩) ops_example = true ∧
      (∀ k, store_get (run (some ⟨[], 0⟩) ops_example) (some k) true true =
        amap_get (amap_run ∅ ops_example) k) ∧
      store_size (run (some ⟨[], 0⟩) ops_example) = (amap_run ∅ ops_example).keys.card :=
  ⟨by decide,
    (store_refines_map alloc_ok ⟨[], 0⟩ ops_example rfl (by decide)).1,
    (store_refines_map alloc_ok ⟨[], 0⟩ ops_example rfl (by decide)).2.2.1⟩

/-! ## Clear and absent arguments -/

/-- C9, clear empties the store and leaves it usable: after `store_clear`,
`store_size` is 0 and `store_exists` is false for every key; a following
successful `store_put` gives `store_size` 1 and the key reads back. -/
theorem clear_empties (store : Option store_t) :
    store_size (store_clear store) = 0 ∧
    (∀ k, store_exists (store_clear store) (some k) = false) ∧
    (∀ (a : alloc_t) (k v : List Nat) (n : Nat), v.length = n →
      (store_put a (store_clear store) (some k) (some v) n).1 = STORE_OK →
      store_size (store_put a (store_clear store) (some k) (some v) n).2 = 1 ∧
        store_get (store_put a (store_clear store) (some k) (some v) n).2
          (some k) true true = (STORE_OK, some (v, n))) := by
  cases store with
  | none => exact ⟨rfl, fun k => rfl, fun a k v n _ hput => absurd hput invalid_ne_ok⟩
  | some s =>
    have hc : store_clear (some s) = some ⟨[], s.capacity⟩ := rfl
    rw [hc]
    refine ⟨rfl, fun k => rfl, ?_⟩
    intro a k v n hn hput
    obtain ⟨t, ht⟩ := put_eq_of_status a _ k v n hput
    subst hn
    constructor
    · rw [ht]
      simp only [store_size, store_t.size]
      rw [put_length a _ t k v _ ht]
      rfl
    · rw [ht, store_get_eq, put_lookup_self a _ t k v _ ht, memcpy_length]

theorem clear_empties_witness :
    store_size (store_clear (some store_abc)) = 0 ∧
      store_exists (store_clear (some store_abc)) (some [98]) = false ∧
      store_size (store_put alloc_ok (store_clear (some store_abc)) (some [110])
        (some [116, 0]) 2).2 = 1 ∧
      store_get (store_put alloc_ok (store_clear (some store_abc)) (some [110])
        (some [116, 0]) 2).2 (some [110]) true true = (STORE_OK, some ([116, 0], 2)) :=
  ⟨(clear_empties (some store_abc)).1, (clear_empties (some store_abc)).2.1 [98],
    (clear_empties (some store_abc)).2.2 alloc_ok [110] [116, 0] 2 rfl (by decide)⟩

/-- C10, absent arguments: `store_put` returns `STORE_ERR_INVALID` when the
store, the key or the value is absent, whatever the length (0 included);
`store_get` does when the store, the key or an output slot is absent;
`store_delete` does when the store or the key is absent; in all these cases
the store is left as it was.  `store_exists` is false when the store or the key
is absent, and `store_size` of an absent store is 0. -/
theorem absent_arguments :
    (∀ (a : alloc_t) (store : Option store_t) (key value : Option (List Nat)) (n : Nat),
      store = none ∨ key = none ∨ value = none →
      store_put a store key value n = (STORE_ERR_INVALID, store)) ∧
    (∀ (store : Option store_t) (key : Option (List Nat)) (value_out value_size_out : Bool),
      store = none ∨ key = none ∨ value_out = false ∨ value_size_out = false →
      store_get store key value_out value_size_out = (STORE_ERR_INVALID, none)) ∧
    (∀ (a : alloc_t) (store : Option store_t) (key : Option (List Nat)),
      store = none ∨ key = none →
      store_delete a store key = (STORE_ERR_INVALID, store)) ∧
    (∀ (store : Option store_t) (key : Option (List Nat)),
      store = none ∨ key = none → store_exists store key = false) ∧
    store_size none = 0 := by
  refine ⟨?_, ?_, ?_, ?_, rfl⟩
  · intro a store key value n h
    rcases h with rfl | rfl | rfl
    · rfl
    · cases store <;> rfl
    · cases store <;> cases key <;> rfl
  · intro store key vo so h
    rcases h with rfl | rfl | rfl | rfl
    · rfl
    · cases store <;> rfl
    · cases store <;> cases key <;> rfl
    · cases store <;> cases key <;> cases vo <;> rfl
  · intro a store key h
    rcases h with rfl | rfl
    · rfl
    · cases store <;> rfl
  · intro store key h
    rcases h with rfl | rfl
    · rfl
    · cases store <;> rfl

theorem absent_arguments_witness :
    store_put alloc_ok (some store_abc) (some [107]) none 0 =
        (STORE_ERR_INVALID, some store_abc) ∧
      store_get (some store_abc) (some [97]) true false = (STORE_ERR_INVALID, none) ∧
      store_delete alloc_ok (some store_abc) none = (STORE_ERR_INVALID, some store_abc) ∧
      store_exists (some store_abc) none = false :=
  ⟨absent_arguments.1 alloc_ok (some store_abc) (some [107]) none 0 (Or.inr (Or.inr rfl)),
    absent_arguments.2.1 (some store_abc) (some [97]) true false (Or.inr (Or.inr (Or.inr rfl))),
    absent_arguments.2.2.1 alloc_ok (some store_abc) none (Or.inr rfl),
    absent_arguments.2.2.2.1 (some store_abc) none (Or.inr rfl)⟩

/-! ## Exact outcome of put and delete, capacity included -/

/-- The put of a key that the scan does not find: resize when full, then append. -/
theorem store_put_absent (a : alloc_t) (s : store_t) (k v : List Nat) (n : Nat)
    (hl : lookup s.entries k = none) :
    store_put a (some s) (some k) (some v) n =
      if s.size ≥ s.capacity ∧ a.realloc_ok = false then (STORE_ERR_NOMEM, some s)
      else if a.strdup_ok = true ∧ a.malloc_ok = true then
        (STORE_OK, some
          { entries := s.entries ++ [⟨k, memcpy v n, n⟩],
            capacity := if s.size ≥ s.capacity then (if s.capacity = 0 then 4 else s.capacity * 2)
              else s.capacity })
      else
        (STORE_ERR_NOMEM, some
          { entries := s.entries,
            capacity := if s.size ≥ s.capacity then (if s.capacity = 0 then 4 else s.capacity * 2)
              else s.capacity }) := by
  have hf : find_index s.entries k = none := (find_index_eq_none _ _).2 hl
  simp only [store_put, hf, put_append]
  by_cases hg : s.size ≥ s.capacity <;> cases hr : a.realloc_ok <;>
    cases hs : a.strdup_ok <;> cases hm : a.malloc_ok <;> simp [hg]

/-- The put of a key that the scan finds: the value of the first match is
replaced when `malloc` succeeds, and nothing changes when it fails. -/
theorem store_put_present (a : alloc_t) (s : store_t) (k v : List Nat) (n : Nat)
    (hl : lookup s.entries k ≠ none) :
    ∃ l1 e l2, s.entries = l1 ++ e :: l2 ∧ e.key = k ∧ (∀ x ∈ l1, x.key ≠ k) ∧
      store_put a (some s) (some k) (some v) n =
        if a.malloc_ok = true then
          (STORE_OK, some { entries := l1 ++ ⟨k, memcpy v n, n⟩ :: l2, capacity := s.capacity })
        else (STORE_ERR_NOMEM, some s) := by
  cases hf : find_index s.entries k with
  | none => exact absurd ((find_index_eq_none _ _).1 hf) hl
  | some p =>
    obtain ⟨i, e⟩ := p
    obtain ⟨l1, l2, h1, h2, h3, h4⟩ := find_index_split _ _ _ _ hf
    refine ⟨l1, e, l2, h1, h3, h4, ?_⟩
    simp only [store_put, hf]
    cases hm : a.malloc_ok
    · simp
    · simp only [not_true_eq_false, if_false, if_true]
      rw [h1, ← h2, set_at_split, h3]

/-- The capacity after a delete that found its key. -/
theorem store_delete_capacity (a : alloc_t) (s t : store_t) (k : List Nat)
    (h : store_delete a (some s) (some k) = (STORE_OK, some t)) :
    t.capacity =
      if s.capacity > 4 ∧ s.size - 1 < s.capacity / 4 ∧ a.realloc_ok = true then s.capacity / 2
      else s.capacity := by
  simp only [store_delete] at h
  cases hf : find_index s.entries k with
  | none =>
    rw [hf] at h
    exact absurd (congrArg Prod.fst h) notfound_ne_ok
  | some p =>
    obtain ⟨i, e⟩ := p
    rw [hf] at h
    simp only at h
    by_cases hc : s.capacity > 4 ∧ s.size - 1 < s.capacity / 4
    · cases hr : a.realloc_ok
      · simp only [hc, hr, and_self, if_true, Bool.false_eq_true, if_false, Prod.mk.injEq,
          Option.some.injEq, true_and, and_false] at h ⊢
        rw [← h]
      · simp only [hc, hr, and_self, if_true, Prod.mk.injEq, Option.some.injEq, true_and] at h ⊢
        rw [← h]
    · have hc2 : ¬ (s.capacity > 4 ∧ s.size - 1 < s.capacity / 4 ∧ a.realloc_ok = true) :=
        fun hx => hc ⟨hx.1, hx.2.1⟩
      simp only [hc, if_false, Prod.mk.injEq, Option.some.injEq, true_and] at h
      rw [if_neg hc2, ← h]

/-! ## Agreement of get and exists, uniqueness of keys, failed allocations -/

/-- C11, get and exists agree: with all arguments present, `store_get` returns
`STORE_ERR_NOTFOUND` exactly when `store_exists` is false and `STORE_OK` exactly
when it is true; on a freshly created store every get returns
`STORE_ERR_NOTFOUND`. -/
theorem get_exists_agree :
    (∀ (s : store_t) (k : List Nat),
      ((store_get (some s) (some k) true true).1 = STORE_ERR_NOTFOUND ↔
        store_exists (some s) (some k) = false) ∧
      ((store_get (some s) (some k) true true).1 = STORE_OK ↔
        store_exists (some s) (some k) = true)) ∧
    (∀ (a : alloc_t) (s0 : store_t) (k : List Nat), store_create a = some s0 →
      store_get (some s0) (some k) true true = (STORE_ERR_NOTFOUND, none)) := by
  constructor
  · intro s k
    rw [store_get_eq, store_exists_eq]
    cases lookup s.entries k with
    | none =>
      exact ⟨⟨fun _ => rfl, fun _ => rfl⟩,
        ⟨fun h => absurd h notfound_ne_ok, fun h => by simp at h⟩⟩
    | some e =>
      exact ⟨⟨fun h => absurd h.symm notfound_ne_ok, fun h => by simp at h⟩,
        ⟨fun _ => rfl, fun _ => rfl⟩⟩
  · intro a s0 k h0
    rw [create_eq a s0 h0]
    rfl

theorem get_exists_agree_witness :
    ((store_get (some store_abc) (some [100]) true true).1 = STORE_ERR_NOTFOUND ↔
        store_exists (some store_abc) (some [100]) = false) ∧
      ((store_get (some store_abc) (some [98]) true true).1 = STORE_OK ↔
        store_exists (some store_abc) (some [98]) = true) ∧
      store_get (some ⟨[], 0⟩) (some [107]) true true = (STORE_ERR_NOTFOUND, none) :=
  ⟨(get_exists_agree.1 store_abc [100]).1, (get_exists_agree.1 store_abc [98]).2,
    get_exists_agree.2 alloc_ok ⟨[], 0⟩ [107] rfl⟩

/-- C12, key uniqueness: in every store reachable from `store_create` by put,
delete and clear calls (successful or failing), two live entries at different
indices never have equal keys. -/
theorem keys_unique (s : store_t) (hr : Reachable s) (i j : Nat) (ei ej : entry_t)
    (hij : i ≠ j) (hi : s.entries[i]? = some ei) (hj : s.entries[j]? = some ej) :
    strcmp ei.key ej.key ≠ 0 := by
  have hnd := reachable_keys_nodup s hr
  rw [Ne, strcmp_eq_zero_iff]
  intro hkey
  have hil : i < (keys s.entries).length := by
    simp only [keys, List.length_map]
    exact (List.getElem?_eq_some.1 hi).1
  have hjl : j < (keys s.entries).length := by
    simp only [keys, List.length_map]
    exact (List.getElem?_eq_some.1 hj).1
  have hki : (keys s.entries)[i]? = some ei.key := by
    simp only [keys, List.getElem?_map, hi, Option.map_some']
  have hkj : (keys s.entries)[j]? = some ej.key := by
    simp only [keys, List.getElem?_map, hj, Option.map_some']
  rcases Nat.lt_or_gt_of_ne hij with h | h
  · exact List.nodup_iff_getElem?_ne_getElem?.1 hnd i j h hjl (by rw [hki, hkj, hkey])
  · exact List.nodup_iff_getElem?_ne_getElem?.1 hnd j i h hil (by rw [hki, hkj, hkey])

theorem keys_unique_witness :
    strcmp (⟨[97], [1, 0, 2], 3⟩ : entry_t).key (⟨[99], [6], 1⟩ : entry_t).key ≠ 0 :=
  keys_unique store_abc reachable_store_abc 0 2 ⟨[97], [1, 0, 2], 3⟩ ⟨[99], [6], 1⟩
    (by decide) (by decide) (by decide)

/-- C13, transactional replace: when the store holds key `k` and the allocation
of the new value buffer fails, `store_put` returns `STORE_ERR_NOMEM` and the
store is the same as before, so `store_get` of `k` (and of any key) and
`store_size` answer as before. -/
theorem replace_transactional (a : alloc_t) (s : store_t) (k v : List Nat) (n : Nat)
    (hk : store_exists (some s) (some k) = true)
    (hm : a.malloc_ok = false) :
    store_put a (some s) (some k) (some v) n = (STORE_ERR_NOMEM, some s) ∧
      (∀ k1, store_get (store_put a (some s) (some k) (some v) n).2 (some k1) true true =
        store_get (some s) (some k1) true true) ∧
      store_size (store_put a (some s) (some k) (some v) n).2 = store_size (some s) := by
  rw [store_exists_eq] at hk
  have hl : lookup s.entries k ≠ none := by
    intro hc; rw [hc] at hk; exact absurd hk (by decide)
  obtain ⟨l1, e, l2, -, -, -, h⟩ := store_put_present a s k v n hl
  rw [hm] at h
  have h2 : store_put a (some s) (some k) (some v) n = (STORE_ERR_NOMEM, some s) := by
    rw [h]; rfl
  rw [h2]
  exact ⟨rfl, fun _ => rfl, rfl⟩

theorem replace_transactional_witness :
    store_put ⟨false, true, true⟩ (some store_abc) (some [98]) (some [7, 7]) 2 =
        (STORE_ERR_NOMEM, some store_abc) ∧
      (∀ k1, store_get (store_put ⟨false, true, true⟩ (some store_abc) (some [98])
          (some [7, 7]) 2).2 (some k1) true true = store_get (some store_abc) (some k1) true true) ∧
      store_size (store_put ⟨false, true, true⟩ (some store_abc) (some [98]) (some [7, 7]) 2).2 =
        store_size (some store_abc) :=
  replace_transactional ⟨false, true, true⟩ store_abc [98] [7, 7] 2 (by decide) rfl

/-- C14 as stated fails: on a fresh store (capacity 0) a put whose `realloc`
succeeds and whose `strdup` fails returns `STORE_ERR_NOMEM` and leaves the
capacity at 4, not at 0. -/
theorem failed_append_counterexample :
    store_exists (some ⟨[], 0⟩) (some [97]) = false ∧
      store_put ⟨true, true, false⟩ (some ⟨[], 0⟩) (some [97]) (some [1]) 1 =
        (STORE_ERR_NOMEM, some ⟨[], 4⟩) ∧
      (store_put ⟨true, true, false⟩ (some ⟨[], 0⟩) (some [97]) (some [1]) 1).2 ≠
        some ⟨[], 0⟩ := by
  decide

/-- C14, amended: when key `k` is not in the store and the resize, the key
duplication or the value allocation fails, `store_put` returns
`STORE_ERR_NOMEM` and appends no entry: the entries and the count are the same
as before.  The capacity is the same as before when the resize failed or the
array was not full; when the array was full and the resize succeeded before the
later allocation failed, the capacity is the grown one (4 from 0, else twice
the old). -/
theorem failed_append (a : alloc_t) (s : store_t) (k v : List Nat) (n : Nat)
    (hk : store_exists (some s) (some k) = false)
    (hfail : (s.size ≥ s.capacity ∧ a.realloc_ok = false) ∨ a.strdup_ok = false ∨
      a.malloc_ok = false) :
    ∃ t, store_put a (some s) (some k) (some v) n = (STORE_ERR_NOMEM, some t) ∧
      t.entries = s.entries ∧ t.size = s.size ∧
      t.capacity =
        if s.size ≥ s.capacity ∧ a.realloc_ok = true then
          (if s.capacity = 0 then 4 else s.capacity * 2)
        else s.capacity := by
  rw [store_exists_eq] at hk
  have hl : lookup s.entries k = none := by
    cases h : lookup s.entries k with
    | none => rfl
    | some e => rw [h] at hk; exact absurd hk (by simp)
  rw [store_put_absent a s k v n hl]
  by_cases h1 : s.size ≥ s.capacity ∧ a.realloc_ok = false
  · refine ⟨s, by rw [if_pos h1], rfl, rfl, ?_⟩
    rw [if_neg]
    intro hc
    rw [h1.2] at hc
    exact absurd hc.2 (by decide)
  · have h2 : ¬ (a.strdup_ok = true ∧ a.malloc_ok = true) := by
      rintro ⟨hs, hm⟩
      rcases hfail with hf | hf | hf
      · exact h1 hf
      · rw [hs] at hf; exact absurd hf (by decide)
      · rw [hm] at hf; exact absurd hf (by decide)
    rw [if_neg h1, if_neg h2]
    refine ⟨_, rfl, rfl, rfl, ?_⟩
    by_cases hg : s.size ≥ s.capacity
    · have hr : a.realloc_ok = true := by
        cases hr : a.realloc_ok
        · exact absurd ⟨hg, hr⟩ h1
        · rfl
      simp only [hg, hr, and_self, if_true]
    · simp only [hg, false_and, if_false]

theorem failed_append_witness :
    ∃ t, store_put ⟨true, true, false⟩ (some ⟨[], 0⟩) (some [97]) (some [1]) 1 =
        (STORE_ERR_NOMEM, some t) ∧
      t.entries = [] ∧ t.size = 0 ∧ t.capacity = 4 :=
  failed_append ⟨true, true, false⟩ ⟨[], 0⟩ [97] [1] 1 (by decide) (Or.inr (Or.inl rfl))

/-- C15, closed set of status codes: `store_put` returns only `STORE_OK`,
`STORE_ERR_NOMEM` or `STORE_ERR_INVALID`; `store_get` and `store_delete` return
only `STORE_OK`, `STORE_ERR_NOTFOUND` or `STORE_ERR_INVALID`; none returns
`STORE_ERR_EXISTS`; and a put on a key already present is not rejected: with
its allocation succeeding it returns `STORE_OK` and the key then reads the new
value. -/
theorem status_codes_closed :
    (∀ (a : alloc_t) (store : Option store_t) (key value : Option (List Nat)) (n : Nat),
      ((store_put a store key value n).1 = STORE_OK ∨
        (store_put a store key value n).1 = STORE_ERR_NOMEM ∨
        (store_put a store key value n).1 = STORE_ERR_INVALID) ∧
      (store_put a store key value n).1 ≠ STORE_ERR_EXISTS) ∧
    (∀ (store : Option store_t) (key : Option (List Nat)) (value_out value_size_out : Bool),
      ((store_get store key value_out value_size_out).1 = STORE_OK ∨
        (store_get store key value_out value_size_out).1 = STORE_ERR_NOTFOUND ∨
        (store_get store key value_out value_size_out).1 = STORE_ERR_INVALID) ∧
      (store_get store key value_out value_size_out).1 ≠ STORE_ERR_EXISTS) ∧
    (∀ (a : alloc_t) (store : Option store_t) (key : Option (List Nat)),
      ((store_delete a store key).1 = STORE_OK ∨
        (store_delete a store key).1 = STORE_ERR_NOTFOUND ∨
        (store_delete a store key).1 = STORE_ERR_INVALID) ∧
      (store_delete a store key).1 ≠ STORE_ERR_EXISTS) ∧
    (∀ (a : alloc_t) (s : store_t) (k v : List Nat) (n : Nat),
      store_exists (some s) (some k) = true → a.malloc_ok = true →
      (store_put a (some s) (some k) (some v) n).1 = STORE_OK ∧
        store_get (store_put a (some s) (some k) (some v) n).2 (some k) true true =
          (STORE_OK, some (memcpy v n, n))) := by
  have hput : ∀ (a : alloc_t) (store : Option store_t) (key value : Option (List Nat)) (n : Nat),
      (store_put a store key value n).1 = STORE_OK ∨
        (store_put a store key value n).1 = STORE_ERR_NOMEM ∨
        (store_put a store key value n).1 = STORE_ERR_INVALID := by
    intro a store key value n
    cases store with
    | none => exact Or.inr (Or.inr rfl)
    | some s =>
      cases key with
      | none => exact Or.inr (Or.inr rfl)
      | some k =>
        cases value with
        | none => exact Or.inr (Or.inr rfl)
        | some v =>
          rcases store_put_cases a s k v n with ⟨c, h⟩ | ⟨l1, e, l2, -, -, -, h⟩ | ⟨-, c, h⟩
          · rw [h]; exact Or.inr (Or.inl rfl)
          · rw [h]; exact Or.inl rfl
          · rw [h]; exact Or.inl rfl
  have hget : ∀ (store : Option store_t) (key : Option (List Nat)) (vo so : Bool),
      (store_get store key vo so).1 = STORE_OK ∨
        (store_get store key vo so).1 = STORE_ERR_NOTFOUND ∨
        (store_get store key vo so).1 = STORE_ERR_INVALID := by
    intro store key vo so
    cases store with
    | none => exact Or.inr (Or.inr rfl)
    | some s =>
      cases key with
      | none => exact Or.inr (Or.inr rfl)
      | some k =>
        cases vo with
        | false => exact Or.inr (Or.inr rfl)
        | true =>
          cases so with
          | false => exact Or.inr (Or.inr rfl)
          | true =>
            rw [store_get_eq]
            cases lookup s.entries k with
            | none => exact Or.inr (Or.inl rfl)
            | some e => exact Or.inl rfl
  have hdel : ∀ (a : alloc_t) (store : Option store_t) (key : Option (List Nat)),
      (store_delete a store key).1 = STORE_OK ∨
        (store_delete a store key).1 = STORE_ERR_NOTFOUND ∨
        (store_delete a store key).1 = STORE_ERR_INVALID := by
    intro a store key
    cases store with
    | none => exact Or.inr (Or.inr rfl)
    | some s =>
      cases key with
      | none => exact Or.inr (Or.inr rfl)
      | some k =>
        rw [delete_status]
        cases lookup s.entries k with
        | none => exact Or.inr (Or.inl rfl)
        | some e => exact Or.inl rfl
  refine ⟨?_, ?_, ?_, ?_⟩
  · intro a store key value n
    refine ⟨hput a store key value n, ?_⟩
    rcases hput a store key value n with h | h | h <;> rw [h] <;> decide
  · intro store key vo so
    refine ⟨hget store key vo so, ?_⟩
    rcases hget store key vo so with h | h | h <;> rw [h] <;> decide
  · intro a store key
    refine ⟨hdel a store key, ?_⟩
    rcases hdel a store key with h | h | h <;> rw [h] <;> decide
  · intro a s k v n hk hm
    rw [store_exists_eq] at hk
    have hl : lookup s.entries k ≠ none := by
      intro hc; rw [hc] at hk; exact absurd hk (by decide)
    obtain ⟨l1, e, l2, -, -, -, h⟩ := store_put_present a s k v n hl
    rw [if_pos hm] at h
    refine ⟨by rw [h], ?_⟩
    obtain ⟨t, ht⟩ := store_put_snd_some a s (some k) (some v) n
    have hfull : store_put a (some s) (some k) (some v) n = (STORE_OK, some t) :=
      Prod.ext (by rw [h]) ht
    rw [ht, store_get_eq, put_lookup_self a s t k v n hfull]

theorem status_codes_closed_witness :
    (store_put alloc_ok (some store_abc) (some [98]) (some [7, 7]) 2).1 = STORE_OK ∧
      store_get (store_put alloc_ok (some store_abc) (some [98]) (some [7, 7]) 2).2
        (some [98]) true true = (STORE_OK, some (memcpy [7, 7] 2, 2)) :=
  status_codes_closed.2.2.2 alloc_ok store_abc [98] [7, 7] 2 (by decide) rfl

/-! ## Removal and resize policies -/

/-- The scan stops at the first slot whose key compares equal. -/
theorem find_index_of_first (es : List entry_t) (k : List Nat) (i : Nat) (e : entry_t)
    (hi : es[i]? = some e) (hm : strcmp e.key k = 0)
    (hfirst : ∀ j x, j < i → es[j]? = some x → strcmp x.key k ≠ 0) :
    find_index es k = some (i, e) := by
  induction es generalizing i with
  | nil => simp at hi
  | cons x xs ih =>
    cases i with
    | zero =>
      simp only [List.getElem?_cons_zero, Option.some.injEq] at hi
      subst hi
      simp only [find_index, hm, if_true]
    | succ i =>
      have hx : strcmp x.key k ≠ 0 := hfirst 0 x (Nat.succ_pos i) (by simp)
      simp only [List.getElem?_cons_succ] at hi
      have hrec := ih i hi
        (fun j y hj hy => hfirst (j + 1) y (Nat.succ_lt_succ hj) (by simpa using hy))
      simp only [find_index, hx, if_false, hrec, Option.map_some']

/-- The store after a delete whose scan stopped at slot `i`. -/
theorem store_delete_found (a : alloc_t) (s : store_t) (k : List Nat) (i : Nat) (e : entry_t)
    (hf : find_index s.entries k = some (i, e)) :
    ∃ c, store_delete a (some s) (some k) =
      (STORE_OK, some
        { entries :=
            (if i < s.size - 1 then
              match s.entries[s.size - 1]? with
              | some last => s.entries.set i last
              | none => s.entries
            else s.entries).take (s.size - 1),
          capacity := c }) := by
  simp only [store_delete, hf]
  split_ifs <;> exact ⟨_, rfl⟩

/-- C16, swap-remove: when the live entries are `e_0 .. e_{n-1}` and key `k` is
first matched at index `i`, `store_delete` returns `STORE_OK`, the count becomes
`n - 1`, and the live entries are the old ones at every index below `n - 1`
except that slot `i` (when `i < n - 1`) holds the old last entry `e_{n-1}`. -/
theorem swap_remove (a : alloc_t) (s : store_t) (k : List Nat) (i : Nat) (e : entry_t)
    (hi : s.entries[i]? = some e) (hm : strcmp e.key k = 0)
    (hfirst : ∀ j x, j < i → s.entries[j]? = some x → strcmp x.key k ≠ 0) :
    ∃ t, store_delete a (some s) (some k) = (STORE_OK, some t) ∧
      t.size = s.size - 1 ∧
      ∀ j, j < s.size - 1 →
        t.entries[j]? = if j = i then s.entries[s.size - 1]? else s.entries[j]? := by
  have hf := find_index_of_first s.entries k i e hi hm hfirst
  obtain ⟨c, hc⟩ := store_delete_found a s k i e hf
  have hilt : i < s.entries.length := (List.getElem?_eq_some.1 hi).1
  refine ⟨_, hc, ?_, ?_⟩
  · simp only [store_t.size]
    by_cases hlt : i < s.entries.length - 1
    · have hlast : ∃ last, s.entries[s.entries.length - 1]? = some last :=
        ⟨s.entries[s.entries.length - 1], List.getElem?_eq_getElem (by omega)⟩
      obtain ⟨last, hlast⟩ := hlast
      simp only [hlt, if_true, hlast, List.length_take, List.length_set]
      omega
    · simp only [hlt, if_false, List.length_take]
      omega
  · intro j hj
    simp only [store_t.size] at hj ⊢
    rw [List.getElem?_take_of_lt hj]
    by_cases hlt : i < s.entries.length - 1
    · have hlast : ∃ last, s.entries[s.entries.length - 1]? = some last :=
        ⟨s.entries[s.entries.length - 1], List.getElem?_eq_getElem (by omega)⟩
      obtain ⟨last, hlast⟩ := hlast
      simp only [hlt, if_true, hlast, List.getElem?_set]
      by_cases hji : j = i
      · subst hji
        simp [hilt]
      · have hij : ¬ i = j := fun h => hji h.symm
        simp only [hij, hji, if_false]
    · have hji : j ≠ i := by omega
      simp only [hlt, if_false, hji]

theorem swap_remove_witness :
    ∃ t, store_delete alloc_ok (some store_abc) (some [97]) = (STORE_OK, some t) ∧
      t.size = store_abc.size - 1 ∧
      ∀ j, j < store_abc.size - 1 →
        t.entries[j]? =
          if j = 0 then store_abc.entries[store_abc.size - 1]? else store_abc.entries[j]? :=
  swap_remove alloc_ok store_abc [97] 0 ⟨[97], [1, 0, 2], 3⟩ (by decide) (by decide)
    (fun j _ hj => absurd hj (Nat.not_lt_zero j))

theorem lookup_none_of_exists_false (s : store_t) (k : List Nat)
    (hk : store_exists (some s) (some k) = false) : lookup s.entries k = none := by
  rw [store_exists_eq] at hk
  cases h : lookup s.entries k with
  | none => rfl
  | some e => rw [h] at hk; exact absurd hk (by simp)

theorem lookup_ne_none_of_exists (s : store_t) (k : List Nat)
    (hk : store_exists (some s) (some k) = true) : lookup s.entries k ≠ none := by
  rw [store_exists_eq] at hk
  intro hc
  rw [hc] at hk
  exact absurd hk (by decide)

/-- C17, growth policy: a successful put of a key not in the store leaves the
capacity at 4 (from 0) or at twice the old capacity when the array was full
(`size = capacity`), and unchanged when `size < capacity`; the new entry is
appended behind the existing entries, which keep their order.  A put of a key
already in the store never changes the capacity. -/
theorem growth_policy :
    (∀ (a : alloc_t) (s : store_t) (k v : List Nat) (n : Nat),
      store_exists (some s) (some k) = false →
      (store_put a (some s) (some k) (some v) n).1 = STORE_OK →
      ∃ t, (store_put a (some s) (some k) (some v) n).2 = some t ∧
        (s.size = s.capacity →
          t.capacity = if s.capacity = 0 then 4 else 2 * s.capacity) ∧
        (s.size < s.capacity → t.capacity = s.capacity) ∧
        t.entries = s.entries ++ [⟨k, memcpy v n, n⟩]) ∧
    (∀ (a : alloc_t) (s : store_t) (k v : List Nat) (n : Nat),
      store_exists (some s) (some k) = true →
      ∃ t, (store_put a (some s) (some k) (some v) n).2 = some t ∧
        t.capacity = s.capacity) := by
  constructor
  · intro a s k v n hk hok
    have hl := lookup_none_of_exists_false s k hk
    have hp := store_put_absent a s k v n hl
    rw [hp] at hok ⊢
    by_cases h1 : s.size ≥ s.capacity ∧ a.realloc_ok = false
    · rw [if_pos h1] at hok
      exact absurd hok nomem_ne_ok
    · rw [if_neg h1] at hok ⊢
      by_cases h2 : a.strdup_ok = true ∧ a.malloc_ok = true
      · rw [if_pos h2]
        refine ⟨_, rfl, ?_, ?_, rfl⟩
        · intro heq
          have hg : s.size ≥ s.capacity := Nat.le_of_eq heq.symm
          simp only [hg, if_true]
          split_ifs <;> omega
        · intro hlt
          have hg : ¬ s.size ≥ s.capacity := by omega
          simp only [hg, if_false]
      · rw [if_neg h2] at hok
        exact absurd hok nomem_ne_ok
  · intro a s k v n hk
    obtain ⟨l1, e, l2, -, -, -, h⟩ := store_put_present a s k v n
      (lookup_ne_none_of_exists s k hk)
    rw [h]
    split_ifs
    · exact ⟨_, rfl, rfl⟩
    · exact ⟨_, rfl, rfl⟩

theorem growth_policy_witness :
    ∃ t, (store_put alloc_ok (some ⟨[], 0⟩) (some [97]) (some [1]) 1).2 = some t ∧
      ((⟨[], 0⟩ : store_t).size = (⟨[], 0⟩ : store_t).capacity →
        t.capacity = if (⟨[], 0⟩ : store_t).capacity = 0 then 4
          else 2 * (⟨[], 0⟩ : store_t).capacity) ∧
      ((⟨[], 0⟩ : store_t).size < (⟨[], 0⟩ : store_t).capacity →
        t.capacity = (⟨[], 0⟩ : store_t).capacity) ∧
      t.entries = (⟨[], 0⟩ : store_t).entries ++ [⟨[97], memcpy [1] 1, 1⟩] :=
  growth_policy.1 alloc_ok ⟨[], 0⟩ [97] [1] 1 (by decide) (by decide)

/-- C18, shrink policy: after a successful delete, with `c` the capacity before
and `s` the count after the removal, the capacity is `c / 2` when `c > 4`,
`s < c / 4` and the resize succeeds, and `c` in every other case.  Whether the
resize succeeds changes neither the status nor the entries. -/
theorem shrink_policy (a : alloc_t) (s : store_t) (k : List Nat)
    (hok : (store_delete a (some s) (some k)).1 = STORE_OK) :
    ∃ t, (store_delete a (some s) (some k)).2 = some t ∧
      t.capacity =
        (if s.capacity > 4 ∧ t.size < s.capacity / 4 ∧ a.realloc_ok = true then s.capacity / 2
          else s.capacity) ∧
      ∀ b : alloc_t, (store_delete b (some s) (some k)).1 = STORE_OK ∧
        ∃ u, (store_delete b (some s) (some k)).2 = some u ∧ u.entries = t.entries := by
  obtain ⟨t, ht⟩ := store_delete_snd_some a s (some k)
  have hfull : store_delete a (some s) (some k) = (STORE_OK, some t) := Prod.ext hok ht
  have hlen := delete_length a s t k hfull
  have hsz : s.size - 1 = t.size := by
    simp only [store_t.size]; omega
  refine ⟨t, ht, ?_, ?_⟩
  · rw [store_delete_capacity a s t k hfull, hsz]
  · intro b
    cases hf : find_index s.entries k with
    | none =>
      have hl := (find_index_eq_none _ _).1 hf
      rw [delete_status, hl] at hok
      exact absurd hok notfound_ne_ok
    | some p =>
      obtain ⟨i, e⟩ := p
      obtain ⟨c1, h1⟩ := store_delete_found a s k i e hf
      obtain ⟨c2, h2⟩ := store_delete_found b s k i e hf
      rw [h1] at ht
      simp only [Option.some.injEq] at ht
      rw [h2, ← ht]
      exact ⟨rfl, _, rfl, rfl⟩

theorem shrink_policy_witness :
    ∃ t, (store_delete alloc_ok (some ⟨[⟨[97], [1], 1⟩, ⟨[98], [2], 1⟩], 8⟩) (some [97])).2 =
        some t ∧
      t.capacity =
        (if (8 : Nat) > 4 ∧ t.size < 8 / 4 ∧ alloc_ok.realloc_ok = true then 8 / 2 else 8) ∧
      ∀ b : alloc_t,
        (store_delete b (some ⟨[⟨[97], [1], 1⟩, ⟨[98], [2], 1⟩], 8⟩) (some [97])).1 = STORE_OK ∧
        ∃ u, (store_delete b (some ⟨[⟨[97], [1], 1⟩, ⟨[98], [2], 1⟩], 8⟩) (some [97])).2 =
          some u ∧ u.entries = t.entries :=
  shrink_policy alloc_ok ⟨[⟨[97], [1], 1⟩, ⟨[98], [2], 1⟩], 8⟩ [97] (by decide)

/-! ## Capacity -/

/-- Size and capacity after any put: either both are as before, or the key was
absent and got past the resize, in which case the capacity is the one after the
growth check and at most one entry was added. -/
theorem put_shape (a : alloc_t) (s t : store_t) (key value : Option (List Nat)) (n : Nat)
    (h : (store_put a (some s) key value n).2 = some t) :
    (t.entries.length = s.entries.length ∧ t.capacity = s.capacity) ∨
    (s.entries.length ≤ t.entries.length ∧ t.entries.length ≤ s.entries.length + 1 ∧
      (s.size ≥ s.capacity → a.realloc_ok = true) ∧
      t.capacity =
        if s.size ≥ s.capacity then (if s.capacity = 0 then 4 else s.capacity * 2)
        else s.capacity) := by
  cases key with
  | none =>
    simp only [store_put, Option.some.injEq] at h
    subst h; exact Or.inl ⟨rfl, rfl⟩
  | some k =>
    cases value with
    | none =>
      simp only [store_put, Option.some.injEq] at h
      subst h; exact Or.inl ⟨rfl, rfl⟩
    | some v =>
      cases hl : lookup s.entries k with
      | some e =>
        have hne : lookup s.entries k ≠ none := by rw [hl]; simp
        obtain ⟨l1, e1, l2, h1, -, -, hp⟩ := store_put_present a s k v n hne
        rw [hp] at h
        split_ifs at h
        · simp only [Option.some.injEq] at h
          subst h
          exact Or.inl ⟨by simp [h1], rfl⟩
        · simp only [Option.some.injEq] at h
          subst h; exact Or.inl ⟨rfl, rfl⟩
      | none =>
        rw [store_put_absent a s k v n hl] at h
        by_cases h1 : s.size ≥ s.capacity ∧ a.realloc_ok = false
        · rw [if_pos h1] at h
          simp only [Option.some.injEq] at h
          subst h; exact Or.inl ⟨rfl, rfl⟩
        · have hr : s.size ≥ s.capacity → a.realloc_ok = true := by
            intro hg
            cases hr : a.realloc_ok
            · exact absurd ⟨hg, hr⟩ h1
            · rfl
          rw [if_neg h1] at h
          by_cases h2 : a.strdup_ok = true ∧ a.malloc_ok = true
          · rw [if_pos h2] at h
            simp only [Option.some.injEq] at h
            subst h
            exact Or.inr ⟨by simp, by simp, hr, rfl⟩
          · rw [if_neg h2] at h
            simp only [Option.some.injEq] at h
            subst h
            exact Or.inr ⟨Nat.le_refl _, Nat.le_succ _, hr, rfl⟩

/-- Size and capacity after any delete: nothing changed, or one entry went and
the capacity is as before or halved under the shrink condition. -/
theorem delete_shape (a : alloc_t) (s t : store_t) (key : Option (List Nat))
    (h : (store_delete a (some s) key).2 = some t) :
    t = s ∨
    (t.entries.length + 1 = s.entries.length ∧
      (t.capacity = s.capacity ∨
        (s.capacity > 4 ∧ t.entries.length < s.capacity / 4 ∧ t.capacity = s.capacity / 2))) := by
  cases key with
  | none =>
    simp only [store_delete, Option.some.injEq] at h
    exact Or.inl h.symm
  | some k =>
    by_cases hst : (store_delete a (some s) (some k)).1 = STORE_OK
    · have hfull : store_delete a (some s) (some k) = (STORE_OK, some t) := Prod.ext hst h
      have hlen := delete_length a s t k hfull
      have hcap := store_delete_capacity a s t k hfull
      refine Or.inr ⟨hlen, ?_⟩
      split_ifs at hcap with hc
      · refine Or.inr ⟨hc.1, ?_, hcap⟩
        have := hc.2.1
        simp only [store_t.size] at this
        omega
      · exact Or.inl hcap
    · rw [delete_status] at hst
      cases hl : lookup s.entries k with
      | some e => rw [hl] at hst; exact absurd rfl hst
      | none =>
        rcases store_delete_cases a s k with ⟨-, h1⟩ | ⟨l1, e, h2, h3, h4, -⟩ |
            ⟨l1, e, l2, last, h2, h3, h4, -⟩
        · rw [h1] at h
          simp only [Option.some.injEq] at h
          exact Or.inl h.symm
        · rw [h2, lookup_of_not_mem _ _ _ h4, lookup_cons, if_pos h3] at hl
          exact absurd hl (by simp)
        · rw [h2, lookup_of_not_mem _ _ _ h4, lookup_cons, if_pos h3] at hl
          exact absurd hl (by simp)

/-- In every reachable store the live entries fit the array and the capacity is
0 or 4 times a power of two. -/
theorem reachable_capacity (s : store_t) (h : Reachable s) :
    s.entries.length ≤ s.capacity ∧ (s.capacity = 0 ∨ ∃ j, s.capacity = 4 * 2 ^ j) := by
  induction h with
  | create a s h =>
    rw [create_eq a s h]
    exact ⟨Nat.le_refl _, Or.inl rfl⟩
  | put a s key value n t _ h ih =>
    obtain ⟨ih1, ih2⟩ := ih
    rcases put_shape a s t key value n h with ⟨h1, h2⟩ | ⟨-, h2, -, h4⟩
    · rw [h1, h2]; exact ⟨ih1, ih2⟩
    · simp only [store_t.size] at h4
      by_cases hg : s.entries.length ≥ s.capacity
      · rw [if_pos hg] at h4
        by_cases h0 : s.capacity = 0
        · rw [if_pos h0] at h4
          rw [h4]
          exact ⟨by omega, Or.inr ⟨0, rfl⟩⟩
        · rw [if_neg h0] at h4
          rw [h4]
          refine ⟨by omega, Or.inr ?_⟩
          rcases ih2 with h0c | ⟨j, hj⟩
          · exact absurd h0c h0
          · exact ⟨j + 1, by rw [hj, pow_succ]; ring⟩
      · rw [if_neg hg] at h4
        rw [h4]
        exact ⟨by omega, ih2⟩
  | delete a s key t _ h ih =>
    obtain ⟨ih1, ih2⟩ := ih
    rcases delete_shape a s t key h with rfl | ⟨h1, h2 | ⟨h2, h3, h4⟩⟩
    · exact ⟨ih1, ih2⟩
    · rw [h2]; exact ⟨by omega, ih2⟩
    · rw [h4]
      refine ⟨by omega, Or.inr ?_⟩
      rcases ih2 with h0c | ⟨j, hj⟩
      · omega
      · cases j with
        | zero => omega
        | succ j => exact ⟨j, by rw [hj, pow_succ]; omega⟩
  | clear s t _ h ih =>
    simp only [store_clear, Option.some.injEq] at h
    subst h
    exact ⟨Nat.zero_le _, ih.2⟩

/-- Puts into free slots never resize the array. -/
theorem puts_no_growth (u : store_t) (calls : List (alloc_t × List Nat × List Nat))
    (h : u.size + calls.length ≤ u.capacity) :
    ∃ t, run (some u) (calls.map to_put) = some t ∧ t.capacity = u.capacity ∧
      t.size ≤ u.size + calls.length := by
  induction calls generalizing u with
  | nil => exact ⟨u, rfl, rfl, Nat.le_refl _⟩
  | cons c cs ih =>
    obtain ⟨a, k, v⟩ := c
    simp only [List.length_cons, store_t.size] at h
    obtain ⟨w, hw⟩ := store_put_snd_some a u (some k) (some v) v.length
    have hwcap : w.capacity = u.capacity ∧ w.entries.length ≤ u.entries.length + 1 := by
      rcases put_shape a u w (some k) (some v) v.length hw with ⟨h1, h2⟩ | ⟨-, h2, -, h4⟩
      · exact ⟨h2, by omega⟩
      · have hg : ¬ u.size ≥ u.capacity := by
          simp only [store_t.size]; omega
        rw [if_neg hg] at h4
        exact ⟨h4, h2⟩
    obtain ⟨t, ht, htc, hts⟩ := ih w (by simp only [store_t.size]; omega)
    refine ⟨t, ?_, by rw [htc, hwcap.1], ?_⟩
    · simp only [List.map_cons, run, to_put, step, hw]
      exact ht
    · simp only [store_t.size, List.length_cons] at hts ⊢
      omega

/-- Puts of new, pairwise distinct keys into free slots, with the key and the
value allocated: every put returns `STORE_OK`, each adds one entry, and the
array is never resized (whatever `realloc` would have answered). -/
theorem puts_fill_free_slots (u : store_t) (calls : List (alloc_t × List Nat × List Nat))
    (h : u.size + calls.length ≤ u.capacity)
    (hnd : (calls.map (fun c => c.2.1)).Nodup)
    (hnew : ∀ c ∈ calls, c.2.1 ∉ keys u.entries)
    (hal : ∀ c ∈ calls, c.1.strdup_ok = true ∧ c.1.malloc_ok = true) :
    all_ok (some u) (calls.map to_put) = true ∧
      ∃ t, run (some u) (calls.map to_put) = some t ∧
        t.size = u.size + calls.length ∧ t.capacity = u.capacity := by
  induction calls generalizing u with
  | nil => exact ⟨rfl, u, rfl, rfl, rfl⟩
  | cons c cs ih =>
    obtain ⟨a, k, v⟩ := c
    simp only [List.length_cons] at h
    simp only [List.map_cons, List.nodup_cons] at hnd
    have hk : lookup u.entries k = none := by
      by_contra hc
      exact hnew (a, k, v) (List.mem_cons_self _ _) ((mem_keys_iff _ _).2 hc)
    have ha := hal (a, k, v) (List.mem_cons_self _ _)
    have hfree : ¬ u.size ≥ u.capacity := by omega
    have hput : store_put a (some u) (some k) (some v) v.length =
        (STORE_OK, some ⟨u.entries ++ [⟨k, memcpy v v.length, v.length⟩], u.capacity⟩) := by
      rw [store_put_absent a u k v v.length hk, if_neg (fun hc => hfree hc.1), if_pos ha,
        if_neg hfree]
    have hrec := ih ⟨u.entries ++ [⟨k, memcpy v v.length, v.length⟩], u.capacity⟩
      (by simp only [store_t.size, List.length_append, List.length_singleton] at h ⊢; omega)
      hnd.2
      (by
        intro c hc hmem
        simp only [keys, List.map_append, List.map_cons, List.map_nil, List.mem_append,
          List.mem_singleton] at hmem
        rcases hmem with hmem | hmem
        · exact hnew c (List.mem_cons_of_mem _ hc) hmem
        · exact hnd.1 (List.mem_map.2 ⟨c, hc, hmem⟩))
      (fun c hc => hal c (List.mem_cons_of_mem _ hc))
    obtain ⟨hok, t, ht, hts, htc⟩ := hrec
    refine ⟨?_, t, ?_, ?_, htc⟩
    · rw [List.map_cons, all_ok_cons]
      simp only [to_put, step, hput]
      exact ⟨trivial, hok⟩
    · simp only [List.map_cons, run, to_put, step, hput]
      exact ht
    · rw [hts]
      simp only [store_t.size, List.length_append, List.length_singleton, List.length_cons,
        List.length_nil]
      omega

/-- C19, clear keeps the capacity: `store_clear` sets the count to 0 and leaves
the capacity as it was.  After the clear, up to `capacity` new (pairwise
distinct) keys can be put without any growth of the array: when the key and the
value of each put are allocated, every put returns `STORE_OK` whatever `realloc`
would answer, the count becomes the number of puts, every key reads back its
value, and the capacity is still the one before the clear.  More generally, no
run of at most `capacity` puts after the clear, successful or not, changes the
capacity. -/
theorem clear_keeps_capacity (s : store_t) :
    (∃ t, store_clear (some s) = some t ∧ t.size = 0 ∧ t.capacity = s.capacity) ∧
    (∀ calls : List (alloc_t × List Nat × List Nat), calls.length ≤ s.capacity →
      (calls.map (fun c => c.2.1)).Nodup →
      (∀ c ∈ calls, c.1.strdup_ok = true ∧ c.1.malloc_ok = true) →
      all_ok (store_clear (some s)) (calls.map to_put) = true ∧
        ∃ t, run (store_clear (some s)) (calls.map to_put) = some t ∧
          t.size = calls.length ∧ t.capacity = s.capacity ∧
          ∀ c ∈ calls, store_get (some t) (some c.2.1) true true =
            (STORE_OK, some (c.2.2, c.2.2.length))) ∧
    (∀ calls : List (alloc_t × List Nat × List Nat), calls.length ≤ s.capacity →
      ∃ t, run (store_clear (some s)) (calls.map to_put) = some t ∧
        t.capacity = s.capacity) := by
  have hc : store_clear (some s) = some ⟨[], s.capacity⟩ := rfl
  refine ⟨⟨⟨[], s.capacity⟩, rfl, rfl, rfl⟩, ?_, ?_⟩
  · intro calls hlen hnd hal
    rw [hc]
    obtain ⟨hok, t, ht, hts, htc⟩ := puts_fill_free_slots ⟨[], s.capacity⟩ calls
      (by simp only [store_t.size, List.length_nil]; omega) hnd
      (fun c _ hmem => by simp [keys] at hmem) hal
    refine ⟨hok, t, ht, ?_, htc, ?_⟩
    · rw [hts]
      simp [store_t.size]
    · intro c hcm
      have hinit : refines ⟨[], s.capacity⟩ ∅ :=
        ⟨List.nodup_nil, fun k => by simp only [lookup_nil, Finmap.lookup_empty]; rfl⟩
      obtain ⟨t2, ht2, hrt⟩ := run_refines ⟨[], s.capacity⟩ ∅ (calls.map to_put) hinit hok
      rw [ht] at ht2
      simp only [Option.some.injEq] at ht2
      subst ht2
      rw [refines_get t _ hrt]
      unfold amap_get
      rw [amap_puts_lookup ∅ calls hnd c hcm]
  · intro calls hlen
    rw [hc]
    obtain ⟨t, ht, htc, -⟩ := puts_no_growth ⟨[], s.capacity⟩ calls
      (by simp only [store_t.size, List.length_nil]; omega)
    exact ⟨t, ht, htc⟩

theorem clear_keeps_capacity_witness :
    all_ok (store_clear (some store_wide)) (calls_example.map to_put) = true ∧
      ∃ t, run (store_clear (some store_wide)) (calls_example.map to_put) = some t ∧
        t.size = calls_example.length ∧ t.capacity = store_wide.capacity ∧
        ∀ c ∈ calls_example, store_get (some t) (some c.2.1) true true =
          (STORE_OK, some (c.2.2, c.2.2.length)) :=
  (clear_keeps_capacity store_wide).2.1 calls_example (by decide) (by decide) (by decide)

theorem step_capacity_pos (s t : store_t) (o : op_t) (hs : 0 < s.capacity)
    (h : (step (some s) o).2 = some t) : 0 < t.capacity := by
  cases o with
  | put a k v =>
    simp only [step] at h
    rcases put_shape a s t _ _ _ h with ⟨-, h2⟩ | ⟨-, -, -, h4⟩
    · omega
    · rw [h4]; split_ifs <;> omega
  | delete a k =>
    simp only [step] at h
    rcases delete_shape a s t _ h with rfl | ⟨-, h2 | ⟨h2, -, h4⟩⟩
    · exact hs
    · omega
    · omega
  | clear =>
    simp only [step, store_clear, Option.some.injEq] at h
    subst h
    exact hs

theorem step_snd_some (s : store_t) (o : op_t) : ∃ t, (step (some s) o).2 = some t := by
  cases o with
  | put a k v => exact store_put_snd_some a s _ _ _
  | delete a k => exact store_delete_snd_some a s _
  | clear => exact ⟨_, rfl⟩

theorem run_capacity_pos (s t : store_t) (ops : List op_t) (hs : 0 < s.capacity)
    (h : run (some s) ops = some t) : 0 < t.capacity := by
  induction ops generalizing s with
  | nil =>
    simp only [run, Option.some.injEq] at h
    subst h; exact hs
  | cons o os ih =>
    obtain ⟨u, hu⟩ := step_snd_some s o
    simp only [run, hu] at h
    exact ih u (step_capacity_pos s u o hs hu) h

/-- C20, capacity invariant: in every store reachable from `store_create` by
put, delete and clear calls (with any allocation failing or succeeding),
`size <= capacity` and the capacity is 0 or `4 * 2^j`; so it is never 1, 2 or 3,
it is at least 4 when an entry is stored, and once it is at least 4 it stays so.
The slot written by an append lies inside the array, and a delete (also one that
shrinks the array to half) leaves every live entry inside the array. -/
theorem capacity_invariant (s : store_t) (hr : Reachable s) :
    s.size ≤ s.capacity ∧
    (s.capacity = 0 ∨ ∃ j, s.capacity = 4 * 2 ^ j) ∧
    ¬ (1 ≤ s.capacity ∧ s.capacity ≤ 3) ∧
    (0 < s.size → 4 ≤ s.capacity) ∧
    (∀ (ops : List op_t) (t : store_t), 4 ≤ s.capacity → run (some s) ops = some t →
      4 ≤ t.capacity) ∧
    (∀ (a : alloc_t) (k v : List Nat) (n : Nat) (t : store_t),
      store_exists (some s) (some k) = false →
      (s.size ≥ s.capacity → a.realloc_ok = true) →
      (store_put a (some s) (some k) (some v) n).2 = some t → s.size < t.capacity) ∧
    (∀ (a : alloc_t) (key : Option (List Nat)) (t : store_t),
      (store_delete a (some s) key).2 = some t →
      t.size ≤ t.capacity ∧
        (t.capacity ≠ s.capacity → t.capacity = s.capacity / 2 ∧ t.size < t.capacity)) := by
  have hform : ∀ u : store_t, Reachable u → 0 < u.capacity → 4 ≤ u.capacity := by
    intro u hu hpos
    rcases (reachable_capacity u hu).2 with h0 | ⟨j, hj⟩
    · omega
    · rw [hj]
      have : 1 ≤ 2 ^ j := Nat.one_le_two_pow
      omega
  obtain ⟨h1, h2⟩ := reachable_capacity s hr
  refine ⟨h1, h2, ?_, ?_, ?_, ?_, ?_⟩
  · rintro ⟨ha, hb⟩
    have := hform s hr (by omega)
    omega
  · intro hsz
    simp only [store_t.size] at hsz
    exact hform s hr (by omega)
  · intro ops t h4 hrun
    exact hform t (reachable_run s t ops hr hrun) (run_capacity_pos s t ops (by omega) hrun)
  · intro a k v n t hk hre hput
    have hl := lookup_none_of_exists_false s k hk
    rw [store_put_absent a s k v n hl] at hput
    have hn1 : ¬ (s.size ≥ s.capacity ∧ a.realloc_ok = false) := by
      rintro ⟨hg, hf⟩
      rw [hre hg] at hf
      exact absurd hf (by decide)
    rw [if_neg hn1] at hput
    have hcap : t.capacity =
        if s.size ≥ s.capacity then (if s.capacity = 0 then 4 else s.capacity * 2)
        else s.capacity := by
      by_cases h3 : a.strdup_ok = true ∧ a.malloc_ok = true
      · rw [if_pos h3] at hput
        simp only [Option.some.injEq] at hput
        subst hput; rfl
      · rw [if_neg h3] at hput
        simp only [Option.some.injEq] at hput
        subst hput; rfl
    rw [hcap]
    simp only [store_t.size] at h1 ⊢
    split_ifs <;> omega
  · intro a key t hdel
    have ht := reachable_capacity t (Reachable.delete a s key t hr hdel)
    refine ⟨ht.1, ?_⟩
    intro hne
    rcases delete_shape a s t key hdel with rfl | ⟨-, h3 | ⟨h3, h4, h5⟩⟩
    · exact absurd rfl hne
    · exact absurd h3 hne
    · refine ⟨h5, ?_⟩
      simp only [store_t.size]
      omega

theorem capacity_invariant_witness :
    store_abc.size ≤ store_abc.capacity ∧
      (store_abc.capacity = 0 ∨ ∃ j, store_abc.capacity = 4 * 2 ^ j) :=
  ⟨(capacity_invariant store_abc reachable_store_abc).1,
    (capacity_invariant store_abc reachable_store_abc).2.1⟩

end KV
